import Mathlib

/- Verification of the odds-label standardisation engine of the SportMonks
   loader (src/PSQL.py: `standardise_columns`, `odds_includes`).

   Python strings are modelled as `List Char`; the Python string operations
   used by the source (`in`, `replace`, `strip`, `split`, `upper`,
   `enchant.utils.levenshtein`) are reproduced below.  The in-place dict
   mutation of the source is modelled by explicit state passing over list
   positions; Python's `j != i` comparison of two dicts is value inequality
   of the corresponding records. -/

def chars (s : String) : List Char := s.toList

/-- Whitespace set of Python's `str.strip()` / `str.split()` (ASCII part). -/
def isPySpace (c : Char) : Bool :=
  c == ' ' || c == '\t' || c == '\n' || c == '\r' || c == '\x0b' || c == '\x0c'

/-- Python substring test `a in b` (contiguous substring, `"" in b` is true). -/
def pyIn (a : List Char) : List Char → Bool
  | [] => a.isPrefixOf []
  | c :: rest => a.isPrefixOf (c :: rest) || pyIn a rest

/-- Python `s.strip()`: drop leading and trailing whitespace. -/
def pyStrip (s : List Char) : List Char :=
  ((s.dropWhile isPySpace).reverse.dropWhile isPySpace).reverse

/-- Worker for `pyReplace`; `fuel` dominates the length of the remaining
    string, so the recursion is structural.  Replacement is left to right and
    non-overlapping, exactly as Python's `str.replace`. -/
def pyReplaceAux (pat rep : List Char) : Nat → List Char → List Char
  | _, [] => []
  | 0, s => s
  | fuel + 1, c :: rest =>
    if pat.isPrefixOf (c :: rest) then
      rep ++ pyReplaceAux pat rep fuel ((c :: rest).drop pat.length)
    else
      c :: pyReplaceAux pat rep fuel rest

/-- Helper for the empty-pattern case of Python `replace`
    (`"abc".replace("", "X") = "XaXbXcX"`). -/
def interleave (rep : List Char) : List Char → List Char
  | [] => []
  | c :: rest => c :: (rep ++ interleave rep rest)

/-- Python `s.replace(pat, rep)`. -/
def pyReplace (pat rep s : List Char) : List Char :=
  if pat = [] then rep ++ interleave rep s
  else pyReplaceAux pat rep s.length s

/-- Worker for `pySplitCh`: the first argument is the reversed current
    segment. -/
def pySplitChAux (sep : Char) : List Char → List Char → List (List Char)
  | cur, [] => [cur.reverse]
  | cur, c :: rest =>
    if c == sep then cur.reverse :: pySplitChAux sep [] rest
    else pySplitChAux sep (c :: cur) rest

/-- Python `s.split(sep)` for a one-character separator (keeps empty
    segments, result is never empty). -/
def pySplitCh (sep : Char) (s : List Char) : List (List Char) :=
  pySplitChAux sep [] s

/-- Worker for `pySplitWs`: the first argument is the reversed current
    word. -/
def pySplitWsAux : List Char → List Char → List (List Char)
  | cur, [] => if cur = [] then [] else [cur.reverse]
  | cur, c :: rest =>
    if isPySpace c then
      if cur = [] then pySplitWsAux [] rest
      else cur.reverse :: pySplitWsAux [] rest
    else pySplitWsAux (c :: cur) rest

/-- Python `s.split()` (no argument): split on whitespace runs, no empty
    words. -/
def pySplitWs (s : List Char) : List (List Char) :=
  pySplitWsAux [] s

/-- Worker for `levenshtein` with a fuel argument that dominates
    `a.length + b.length`, making the three-way recursion structural.  The
    fuel-exhausted value is never reached when called through
    `levenshtein`. -/
def levAux : Nat → List Char → List Char → Nat
  | _, [], b => b.length
  | _, a :: as, [] => (a :: as).length
  | 0, _ :: as, _ :: bs => as.length + bs.length + 2
  | fuel + 1, a :: as, b :: bs =>
    if a == b then levAux fuel as bs
    else 1 + min (levAux fuel as (b :: bs)) (min (levAux fuel (a :: as) bs) (levAux fuel as bs))

/-- Classic unit-cost edit distance, as computed by
    `enchant.utils.levenshtein`. -/
def levenshteinPy (a b : List Char) : Nat := levAux (a.length + b.length) a b

/-- The team token of a label: `label.split("|")[0].strip()`
    (src/PSQL.py lines 320, 336, 358). -/
def tok (l : List Char) : List Char := pyStrip (l.takeWhile (fun c => c != '|'))

/-- The final punctuation normalisation
    `label.replace("|", "/").replace(" ", "")` (src/PSQL.py line 453 and the
    inner-loop copies). -/
def normLbl (l : List Char) : List Char := pyReplace [' '] [] (pyReplace ['|'] ['/'] l)

/-- The Home/Draw/Away direct substitution (src/PSQL.py lines 344-350 and
    460-465): an `elif` chain, so only the first matching word is
    replaced. -/
def hdaFix (l : List Char) : List Char :=
  if pyIn (chars "Home") l then pyReplace (chars "Home") (chars "1") l
  else if pyIn (chars "Draw") l then pyReplace (chars "Draw") (chars "X") l
  else if pyIn (chars "Away") l then pyReplace (chars "Away") (chars "2") l
  else l

/-- Python `team.upper() == team` (src/PSQL.py line 402). -/
def upperEq (s : List Char) : Bool := s.map Char.toUpper == s

/-- The two-part structural comparison of the multi-word branch
    (src/PSQL.py lines 417-418 and 426-427):
    `team.split()[0] in name.split()[0]` and
    `team.split()[1][0] == name.split()[1][0]`.  In the source this code is
    only reached when both `team` and `name` have at least two (nonempty)
    words, so the defaults below are never consulted there. -/
def structMatch (t name : List Char) : Bool :=
  pyIn ((pySplitWs t).getD 0 []) ((pySplitWs name).getD 0 []) &&
  (((pySplitWs t).getD 1 []).headD '_' == ((pySplitWs name).getD 1 []).headD '_')

/-- One odds entry (`oddsEntry := {label, value, total}` of the fixtures
    payload).  Only these fields take part in the computation and in the
    Python `j != i` dict comparison. -/
structure OddsEntry where
  label : List Char
  value : List Char
  total : Option (List Char)
deriving DecidableEq, Repr

def dEntry : OddsEntry := ⟨[], [], none⟩

/-- The fixture context: home/away team names and short codes. -/
structure FixtureCtx where
  home : List Char
  away : List Char
  homeShort : List Char
  awayShort : List Char
deriving DecidableEq, Repr

/-- The banker test of the reordering pass (src/PSQL.py lines 320-342).
    `bool_dict[team] = team in home or team in away`, with the `"Draw"` key
    deleted, consulted via `bool_dict.get(team)` (absent key and `False` are
    both falsy); entries without `"|"` are appended unconditionally. -/
def isBanker (ctx : FixtureCtx) (e : OddsEntry) : Bool :=
  pyIn ['|'] e.label && (tok e.label != chars "Draw") &&
  (pyIn (tok e.label) ctx.home || pyIn (tok e.label) ctx.away)

/-- The reordering pass building `transformed_response`
    (src/PSQL.py lines 330-342): bankers are inserted at position 0 (hence
    end up at the front, in reversed relative order), all other entries are
    appended. -/
def reorder (ctx : FixtureCtx) (resp : List OddsEntry) : List OddsEntry :=
  resp.foldl (fun acc k => if isBanker ctx k then k :: acc else acc ++ [k]) []

/-- Home/Draw/Away substitution applied to one entry. -/
def hdaEntry (e : OddsEntry) : OddsEntry := {e with label := hdaFix e.label}

/-- The Home/Draw/Away substitution pass over `transformed_response`
    (src/PSQL.py lines 344-350). -/
def phaseB (st : List OddsEntry) : List OddsEntry := st.map hdaEntry

/-- Body of the inner cross-resolution loop (src/PSQL.py lines 366-381 for
    the home case, 386-401 for the away case): given the current entry `iv`
    and a sibling `j`, rewrite `j`'s token to `diffRep` when the tokens
    differ (and `j`'s token is not `"X"`), to `sameRep` when they are equal,
    in both cases followed by the `"|"`/space normalisation; `j != iv` is
    Python's dict value comparison. -/
def innerResolveF (team diffRep sameRep : List Char) (iv j : OddsEntry) : OddsEntry :=
  if pyIn ['|'] j.label then
    if j ≠ iv ∧ tok j.label ≠ chars "X" ∧ team ≠ tok j.label then
      {j with label := normLbl (pyReplace (tok j.label) diffRep j.label)}
    else if j ≠ iv ∧ team = tok j.label then
      {j with label := normLbl (pyReplace team sameRep j.label)}
    else j
  else j

/-- The inner loop `for j in transformed_response` as a fold over positions:
    at each position the current value of the outer entry (position `idx`)
    and of `j` are read from the threaded state, as the live Python objects
    would be. -/
def innerFold (g : OddsEntry → OddsEntry → OddsEntry) (idx : Nat)
    (st : List OddsEntry) : List OddsEntry :=
  (List.range st.length).foldl
    (fun s p => s.set p (g (s.getD idx dEntry) (s.getD p dEntry))) st

/-- Common shape of the home and away resolution branches: first the current
    entry is overwritten with `m` (line 365 resp. 385), then the inner loop
    runs, then the current entry is normalised (line 453). -/
def resolveStep (g : OddsEntry → OddsEntry → OddsEntry) (idx : Nat)
    (st : List OddsEntry) (m : OddsEntry) : List OddsEntry :=
  let st1 := st.set idx m
  let st2 := innerFold g idx st1
  st2.set idx {st2.getD idx dEntry with label := normLbl (st2.getD idx dEntry).label}

/-- One iteration of the main resolution loop (src/PSQL.py lines 352-454)
    at position `idx`: the full branch cascade on the entry's token, each
    branch ending in the final normalisation of line 453 (the structural
    multi-word matches normalise and `continue`, with the same net
    effect). -/
def stepC (ctx : FixtureCtx) (st : List OddsEntry) (idx : Nat) : List OddsEntry :=
  let e := st.getD idx dEntry
  if pyIn ['|'] e.label then
    let team := tok e.label
    if team = chars "X" then
      st.set idx {e with label := normLbl e.label}
    else if pyIn team ctx.home || pyIn ctx.home team then
      let st1 := st.set idx {e with label := pyReplace team (chars "1") e.label}
      let st2 := innerFold (innerResolveF team (chars "2") (chars "1")) idx st1
      st2.set idx {st2.getD idx dEntry with label := normLbl (st2.getD idx dEntry).label}
    else if pyIn team ctx.away || pyIn ctx.away team then
      let st1 := st.set idx {e with label := pyReplace team (chars "2") e.label}
      let st2 := innerFold (innerResolveF team (chars "1") (chars "2")) idx st1
      st2.set idx {st2.getD idx dEntry with label := normLbl (st2.getD idx dEntry).label}
    else if upperEq team then
      if team = ctx.homeShort then
        st.set idx {e with label := normLbl (pyReplace team (chars "1") e.label)}
      else if team = ctx.awayShort then
        st.set idx {e with label := normLbl (pyReplace team (chars "2") e.label)}
      else
        st.set idx {e with label := normLbl e.label}
    else if (pySplitWs team).length > 1 then
      if (pySplitWs ctx.home).length > 1 ∧ structMatch team ctx.home then
        st.set idx {e with label := normLbl (pyReplace team (chars "1") e.label)}
      else if (pySplitWs ctx.away).length > 1 ∧ structMatch team ctx.away then
        st.set idx {e with label := normLbl (pyReplace team (chars "2") e.label)}
      else if levenshteinPy team ctx.home ≥ levenshteinPy team ctx.away then
        st.set idx {e with label := normLbl (pyReplace team (chars "2") e.label)}
      else
        st.set idx {e with label := normLbl (pyReplace team (chars "1") e.label)}
    else if levenshteinPy team ctx.home ≥ levenshteinPy team ctx.away then
      st.set idx {e with label := normLbl (pyReplace team (chars "2") e.label)}
    else
      st.set idx {e with label := normLbl (pyReplace team (chars "1") e.label)}
  else st

/-- The main resolution loop `for i in transformed_response`
    (src/PSQL.py lines 352-454) over all positions. -/
def phaseC (ctx : FixtureCtx) (st : List OddsEntry) : List OddsEntry :=
  (List.range st.length).foldl (stepC ctx) st

/-- `standardise_columns` on a list response (src/PSQL.py lines 319-456). -/
def standardiseList (ctx : FixtureCtx) (resp : List OddsEntry) : List OddsEntry :=
  phaseC ctx (phaseB (reorder ctx resp))

/-- `standardise_columns` on a single dict response
    (src/PSQL.py lines 458-470): Home/Draw/Away substitution and final
    normalisation only. -/
def standardiseDict (e : OddsEntry) : OddsEntry :=
  {e with label := normLbl (hdaFix e.label)}

/-- The dynamically typed top-level argument of `standardise_columns`:
    a list, a single dict, or any other Python value (represented by its
    type name). -/
inductive ApiResponse where
  | list (entries : List OddsEntry)
  | dict (entry : OddsEntry)
  | other (typeName : List Char)
deriving DecidableEq, Repr

/-- `standardise_columns` (src/PSQL.py lines 295-473), with the `TypeError`
    of line 473 modelled as `Except.error`. -/
def standardise_columns (ctx : FixtureCtx) : ApiResponse → Except (List Char) ApiResponse
  | .list entries => .ok (.list (standardiseList ctx entries))
  | .dict e => .ok (.dict (standardiseDict e))
  | .other t => .error (chars "Did not expect response of type: " ++ t)

/-- A Python value stored in the wide row dict of `odds_includes`. -/
inductive PyVal where
  | int (i : Int)
  | str (s : List Char)
deriving DecidableEq, Repr

/-- The wide per-fixture/per-market row: an insertion-ordered dict. -/
abbrev OddsRow := List (List Char × PyVal)

/-- Insertion-ordered dict update: an existing key keeps its position, a new
    key is appended (Python dict semantics). -/
def upsert (key : List Char) (v : PyVal) : OddsRow → OddsRow
  | [] => [(key, v)]
  | kv :: rest => if kv.1 = key then (key, v) :: rest else kv :: upsert key v rest

def rowKeys (row : OddsRow) : List (List Char) := row.map Prod.fst

/-- The half-line condition of `odds_includes`
    (src/PSQL.py line 270): `("." in total) and (total.split(".")[1] == "5")`. -/
def keepTotal : Option (List Char) → Bool
  | none => true
  | some t => pyIn ['.'] t && ((pySplitCh '.' t).getD 1 [] == chars "5")

/-- The column key `bookmaker_name + "_" + label (+ str(total))`
    (src/PSQL.py lines 271-277). -/
def entryKey (bkName : List Char) (e : OddsEntry) : List Char :=
  match e.total with
  | some t => bkName ++ chars "_" ++ e.label ++ t
  | none => bkName ++ chars "_" ++ e.label

/-- The body of `for j in actual_odds` in `odds_includes`
    (src/PSQL.py lines 256-277): the per-entry market filters for markets 12
    and 976316, then the total filter and the dict write.  The second
    component collects the diagnostics emitted at the `continue` sites. -/
def processOddsEntry (mid : Int) (bkName : List Char)
    (acc : OddsRow × List (List Char)) (e : OddsEntry) :
    OddsRow × List (List Char) :=
  if mid = 12 ∧ e.label ≠ chars "Over" ∧ e.label ≠ chars "Under" then
    (acc.1, acc.2 ++ [chars "Incorrect Over/Under label"])
  else if mid = 976316 ∧
      ((pyIn (chars "Yes") e.label = false ∧ pyIn (chars "No") e.label = false) ∨
       (pyIn (chars "1") e.label = false ∧ pyIn (chars "X") e.label = false ∧
        pyIn (chars "2") e.label = false)) then
    (acc.1, acc.2 ++ [chars "Incorrect label for Result/BTTS"])
  else
    match e.total with
    | some t =>
      if pyIn ['.'] t = true ∧ (pySplitCh '.' t).getD 1 [] = chars "5" then
        (upsert (bkName ++ chars "_" ++ e.label ++ t) (PyVal.str e.value) acc.1, acc.2)
      else (acc.1, acc.2)
    | none => (upsert (bkName ++ chars "_" ++ e.label) (PyVal.str e.value) acc.1, acc.2)

/-- One bookmaker record inside a market. -/
structure Bookmaker where
  name : List Char
  odds : List OddsEntry
deriving DecidableEq, Repr

/-- One market record of the odds include. -/
structure Market where
  mid : Int
  mname : List Char
  bookmakers : List Bookmaker
deriving DecidableEq, Repr

/-- The body of `for i in bookmaker` in `odds_includes`
    (src/PSQL.py lines 240-277): standardise the bookmaker's odds, apply the
    whole-group BTTS gate for market 976105 (line 250-254, a `continue`
    skipping the bookmaker), otherwise run the per-entry loop. -/
def processBookmaker (ctx : FixtureCtx) (mid : Int)
    (acc : OddsRow × List (List Char)) (bk : Bookmaker) :
    OddsRow × List (List Char) :=
  let std := standardiseList ctx bk.odds
  if mid = 976105 ∧
      std.any (fun e => !(e.label == chars "Yes") && !(e.label == chars "No")) then
    (acc.1, acc.2 ++ [chars "Incorrect label for BTTS"])
  else std.foldl (processOddsEntry mid bk.name) acc

/-- The per-market row construction of `odds_includes`
    (src/PSQL.py lines 234-277): the three identifying fields, then every
    bookmaker processed in order. -/
def marketRow (ctx : FixtureCtx) (fid : Int) (mk : Market) :
    OddsRow × List (List Char) :=
  mk.bookmakers.foldl (processBookmaker ctx mk.mid)
    ([(chars "id", PyVal.int fid), (chars "market_id", PyVal.int mk.mid),
      (chars "market", PyVal.str mk.mname)], [])

/-- The row-append step of `odds_includes` (src/PSQL.py lines 279-281):
    `for z in odds_list: if z[0] == market_id and len(dict) != 3:
    z.append(dict)`.  Buckets are keyed by their requested market id. -/
def updateBuckets (buckets : List (Int × List OddsRow)) (mid : Int)
    (row : OddsRow) : List (Int × List OddsRow) :=
  buckets.map (fun b => if b.1 = mid ∧ row.length ≠ 3 then (b.1, b.2 ++ [row]) else b)

/-- Guard of the unresolved-acronym diagnostic (src/PSQL.py lines 411-413):
    the entry reaches the acronym branch and matches neither short code. -/
def acronymAmbiguous (ctx : FixtureCtx) (e : OddsEntry) : Bool :=
  pyIn ['|'] e.label && (tok e.label != chars "X") &&
  !(pyIn (tok e.label) ctx.home || pyIn ctx.home (tok e.label)) &&
  !(pyIn (tok e.label) ctx.away || pyIn ctx.away (tok e.label)) &&
  upperEq (tok e.label) &&
  (tok e.label != ctx.homeShort) && (tok e.label != ctx.awayShort)

/-- No leading and no trailing whitespace (so `strip` leaves the string
    unchanged). -/
def stripped (t : List Char) : Prop :=
  t.dropWhile isPySpace = t ∧ t.reverse.dropWhile isPySpace = t.reverse

instance (t : List Char) : Decidable (stripped t) := by
  unfold stripped
  infer_instance

/-- A well-formed team token: nonempty, without `'|'`, already stripped. -/
def cleanName (t : List Char) : Prop :=
  t ≠ [] ∧ '|' ∉ t ∧ stripped t

instance (t : List Char) : Decidable (cleanName t) := by
  unfold cleanName
  infer_instance

/-- An already-canonical label as produced by the canonicaliser: no `'|'`,
    no whitespace, and none of the literal substitution words `"Home"`,
    `"Draw"`, `"Away"` (the canonical vocabulary `1`, `X`, `2`, `Yes`, `No`,
    `Over`, `Under` and their `/`-joins contains none of these). -/
def canonicalLbl (l : List Char) : Prop :=
  '|' ∉ l ∧ (∀ c ∈ l, isPySpace c = false) ∧
  pyIn (chars "Home") l = false ∧ pyIn (chars "Draw") l = false ∧
  pyIn (chars "Away") l = false

instance (l : List Char) : Decidable (canonicalLbl l) := by
  unfold canonicalLbl
  infer_instance

/-- Modelled from the spec's words for claim C5: "the text after the first
    '.'" of a total string, to be compared with what the code actually
    tests (`total.split(".")[1]`). -/
def specAfterFirstDot (t : List Char) : List Char :=
  (t.dropWhile (fun c => c != '.')).drop 1

/- Basic accessor lemmas about `List.set` and `List.getD`. -/

theorem getD_set_self {α : Type} (l : List α) (i : Nat) (a d : α) (h : i < l.length) :
    (l.set i a).getD i d = a := by
  rw [List.getD_eq_getElem?_getD, List.getElem?_set_self h]; rfl

theorem getD_set_ne {α : Type} (l : List α) (i j : Nat) (a d : α) (h : i ≠ j) :
    (l.set i a).getD j d = l.getD j d := by
  rw [List.getD_eq_getElem?_getD, List.getElem?_set_ne h, ← List.getD_eq_getElem?_getD]

theorem set_getD_self {α : Type} (l : List α) (i : Nat) (d : α) :
    l.set i (l.getD i d) = l := by
  rcases Nat.lt_or_ge i l.length with h | h
  · apply List.ext_getElem?
    intro n
    rw [List.getElem?_set]
    split
    · next heq =>
      subst heq
      simp [List.getD_eq_getElem l d h, List.getElem?_eq_getElem h, h]
    · rfl
  · exact List.set_eq_of_length_le h

theorem getD_oob {α : Type} (l : List α) (i : Nat) (d : α) (h : l.length ≤ i) :
    l.getD i d = d := by
  rw [List.getD_eq_getElem?_getD, List.getElem?_eq_none h]; rfl

theorem getD_mem {α : Type} (l : List α) (i : Nat) (d : α) (h : i < l.length) :
    l.getD i d ∈ l := by
  rw [List.getD_eq_getElem l d h]
  exact List.getElem_mem h

/- Lemmas about `pyIn` and `List.isPrefixOf`. -/

theorem isPrefixOf_self_append (a b : List Char) : a.isPrefixOf (a ++ b) = true := by
  induction a with
  | nil => simp [List.isPrefixOf]
  | cons x xs ih => simp [List.isPrefixOf, ih]

theorem pyIn_refl (a : List Char) : pyIn a a = true := by
  cases a with
  | nil => simp [pyIn, List.isPrefixOf]
  | cons c rest =>
    have h := isPrefixOf_self_append (c :: rest) []
    simp at h
    simp [pyIn, h]

theorem pyIn_self_append (a b : List Char) : pyIn a (a ++ b) = true := by
  cases a with
  | nil => cases b <;> simp [pyIn, List.isPrefixOf]
  | cons c rest => simp [pyIn, isPrefixOf_self_append]

theorem pyIn_nil_left (l : List Char) : pyIn [] l = true := by
  cases l <;> simp [pyIn, List.isPrefixOf]

theorem ne_nil_of_not_pyIn {a l : List Char} (h : pyIn a l = false) : a ≠ [] := by
  intro hn
  rw [hn, pyIn_nil_left] at h
  simp at h

theorem nil_isPrefixOf (l : List Char) : List.isPrefixOf ([] : List Char) l = true := by
  cases l <;> rfl

theorem pyIn_singleton (c : Char) (l : List Char) : pyIn [c] l = true ↔ c ∈ l := by
  induction l with
  | nil => simp [pyIn, List.isPrefixOf]
  | cons d rest ih =>
    simp only [pyIn, List.isPrefixOf, nil_isPrefixOf, Bool.and_true, Bool.or_eq_true,
      beq_iff_eq, List.mem_cons, ih]

theorem isPrefixOf_cons_false {p₀ c : Char} {pat' rest : List Char} (h : p₀ ≠ c) :
    (p₀ :: pat').isPrefixOf (c :: rest) = false := by
  simp [List.isPrefixOf, h]

theorem isPrefixOf_append_drop :
    ∀ (a b : List Char), a.isPrefixOf b = true → a ++ b.drop a.length = b
  | [], b, _ => rfl
  | a :: as, [], h => by simp [List.isPrefixOf] at h
  | a :: as, b :: bs, h => by
    simp only [List.isPrefixOf, Bool.and_eq_true, beq_iff_eq] at h
    obtain ⟨rfl, h2⟩ := h
    simpa using isPrefixOf_append_drop as bs h2

/- Unfolding and content lemmas for `pyReplace`. -/

theorem pyReplaceAux_fuel (pat rep : List Char) (hp : pat ≠ []) :
    ∀ (f1 : Nat) (s : List Char) (f2 : Nat), s.length ≤ f1 → s.length ≤ f2 →
      pyReplaceAux pat rep f1 s = pyReplaceAux pat rep f2 s := by
  intro f1
  induction f1 with
  | zero =>
    intro s f2 h1 _
    have : s = [] := List.length_eq_zero.mp (Nat.le_zero.mp h1)
    subst this
    cases f2 <;> rfl
  | succ f ih =>
    intro s f2 h1 h2
    cases s with
    | nil => cases f2 <;> rfl
    | cons c rest =>
      cases f2 with
      | zero => exact absurd h2 (by simp)
      | succ f2' =>
        simp only [List.length_cons] at h1 h2
        have hple : 1 ≤ pat.length := List.length_pos.mpr hp
        have hd : ((c :: rest).drop pat.length).length ≤ rest.length := by
          simp only [List.length_drop, List.length_cons]
          omega
        simp only [pyReplaceAux]
        by_cases hm : pat.isPrefixOf (c :: rest) = true
        · rw [if_pos hm, if_pos hm]
          congr 1
          exact ih _ _ (le_trans hd (Nat.le_of_succ_le_succ h1))
            (le_trans hd (Nat.le_of_succ_le_succ h2))
        · rw [if_neg hm, if_neg hm]
          congr 1
          exact ih _ _ (Nat.le_of_succ_le_succ h1) (Nat.le_of_succ_le_succ h2)

theorem pyReplace_nil (pat rep : List Char) (hp : pat ≠ []) : pyReplace pat rep [] = [] := by
  simp [pyReplace, hp, pyReplaceAux]

theorem pyReplace_cons_pos (pat rep : List Char) (c : Char) (rest : List Char)
    (hp : pat ≠ []) (hm : pat.isPrefixOf (c :: rest) = true) :
    pyReplace pat rep (c :: rest) = rep ++ pyReplace pat rep ((c :: rest).drop pat.length) := by
  have hple : 1 ≤ pat.length := List.length_pos.mpr hp
  unfold pyReplace
  rw [if_neg hp, if_neg hp]
  simp only [List.length_cons, pyReplaceAux]
  rw [if_pos hm]
  congr 1
  apply pyReplaceAux_fuel pat rep hp
  · simp only [List.length_drop, List.length_cons]; omega
  · exact Nat.le_refl _

theorem pyReplace_cons_neg (pat rep : List Char) (c : Char) (rest : List Char)
    (hm : pat.isPrefixOf (c :: rest) = false) :
    pyReplace pat rep (c :: rest) = c :: pyReplace pat rep rest := by
  have hp : pat ≠ [] := by
    intro hn
    rw [hn, nil_isPrefixOf] at hm
    simp at hm
  unfold pyReplace
  rw [if_neg hp, if_neg hp]
  simp only [List.length_cons, pyReplaceAux]
  rw [if_neg (by simp [hm])]

theorem mem_interleave {c : Char} {rep s : List Char} (h : c ∈ interleave rep s) :
    c ∈ rep ∨ c ∈ s := by
  induction s with
  | nil => simp [interleave] at h
  | cons d rest ih =>
    simp only [interleave, List.mem_cons, List.mem_append] at h
    rcases h with h | h | h
    · exact Or.inr (by simp [h])
    · exact Or.inl h
    · rcases ih h with h' | h'
      · exact Or.inl h'
      · exact Or.inr (List.mem_cons_of_mem _ h')

theorem mem_pyReplaceAux {c : Char} {pat rep : List Char} :
    ∀ (f : Nat) (s : List Char), c ∈ pyReplaceAux pat rep f s → c ∈ rep ∨ c ∈ s := by
  intro f
  induction f with
  | zero =>
    intro s h
    cases s with
    | nil => simp [pyReplaceAux] at h
    | cons d rest => exact Or.inr h
  | succ f ih =>
    intro s h
    cases s with
    | nil => simp [pyReplaceAux] at h
    | cons d rest =>
      simp only [pyReplaceAux] at h
      by_cases hm : pat.isPrefixOf (d :: rest) = true
      · rw [if_pos hm] at h
        rcases List.mem_append.mp h with h' | h'
        · exact Or.inl h'
        · rcases ih _ h' with h'' | h''
          · exact Or.inl h''
          · exact Or.inr (List.mem_of_mem_drop h'')
      · rw [if_neg hm] at h
        rcases List.mem_cons.mp h with h' | h'
        · exact Or.inr (by simp [h'])
        · rcases ih _ h' with h'' | h''
          · exact Or.inl h''
          · exact Or.inr (List.mem_cons_of_mem _ h'')

theorem mem_pyReplace {c : Char} {pat rep s : List Char} (h : c ∈ pyReplace pat rep s) :
    c ∈ rep ∨ c ∈ s := by
  by_cases hp : pat = []
  · simp only [pyReplace, if_pos hp] at h
    rcases List.mem_append.mp h with h' | h'
    · exact Or.inl h'
    · exact mem_interleave h'
  · simp only [pyReplace, if_neg hp] at h
    exact mem_pyReplaceAux _ _ h

theorem not_mem_pyReplace {c : Char} {pat rep s : List Char}
    (hr : c ∉ rep) (hs : c ∉ s) : c ∉ pyReplace pat rep s := by
  intro h
  rcases mem_pyReplace h with h' | h' <;> [exact hr h'; exact hs h']

theorem mem_pyReplace_of_mem {c : Char} {pat rep : List Char} (hcp : c ∉ pat) :
    ∀ (s : List Char), c ∈ s → c ∈ pyReplace pat rep s := by
  have key : ∀ (f : Nat) (s : List Char), s.length ≤ f → pat ≠ [] → c ∈ s →
      c ∈ pyReplaceAux pat rep f s := by
    intro f
    induction f with
    | zero =>
      intro s hf _ hc
      have : s = [] := List.length_eq_zero.mp (Nat.le_zero.mp hf)
      subst this
      simp at hc
    | succ f ih =>
      intro s hf hp hc
      cases s with
      | nil => simp at hc
      | cons d rest =>
        simp only [pyReplaceAux]
        by_cases hm : pat.isPrefixOf (d :: rest) = true
        · rw [if_pos hm]
          have hdec := isPrefixOf_append_drop pat (d :: rest) hm
          have hcd : c ∈ (d :: rest).drop pat.length := by
            have : c ∈ pat ++ (d :: rest).drop pat.length := by rw [hdec]; exact hc
            rcases List.mem_append.mp this with h' | h'
            · exact absurd h' hcp
            · exact h'
          refine List.mem_append.mpr (Or.inr ?_)
          apply ih _ _ hp hcd
          have hple : 1 ≤ pat.length := List.length_pos.mpr hp
          simp only [List.length_cons] at hf
          simp only [List.length_drop, List.length_cons]
          omega
        · rw [if_neg hm]
          rcases List.mem_cons.mp hc with h' | h'
          · exact List.mem_cons.mpr (Or.inl h')
          · exact List.mem_cons.mpr (Or.inr (ih _ (Nat.le_of_succ_le_succ hf) hp h'))
  intro s hc
  by_cases hp : pat = []
  · subst hp
    simp only [pyReplace, if_pos rfl]
    refine List.mem_append.mpr (Or.inr ?_)
    induction s with
    | nil => simp at hc
    | cons d rest ih =>
      rcases List.mem_cons.mp hc with h' | h'
      · simp [interleave, h']
      · simp only [interleave, List.mem_cons, List.mem_append]
        exact Or.inr (Or.inr (ih h'))
  · simp only [pyReplace, if_neg hp]
    exact key _ _ (Nat.le_refl _) hp hc

/- Content lemmas for `normLbl`. -/

theorem not_mem_pyReplace_single {c : Char} {rep : List Char} (hr : c ∉ rep) (s : List Char) :
    c ∉ pyReplace [c] rep s := by
  induction s with
  | nil => rw [pyReplace_nil _ _ (by simp)]; simp
  | cons d rest ih =>
    by_cases hcd : c = d
    · subst hcd
      have hm : List.isPrefixOf [c] (c :: rest) = true := by simp [List.isPrefixOf]
      rw [pyReplace_cons_pos _ _ _ _ (by simp) hm]
      intro h
      rcases List.mem_append.mp h with h' | h'
      · exact hr h'
      · simp only [List.length_singleton, List.drop_succ_cons, List.drop_zero] at h'
        exact ih h'
    · have hm : List.isPrefixOf [c] (d :: rest) = false := by
        simp [List.isPrefixOf]
        exact fun hh => absurd hh hcd
      rw [pyReplace_cons_neg _ _ _ _ hm]
      intro h
      rcases List.mem_cons.mp h with h' | h'
      · exact hcd h'
      · exact ih h'

theorem norm_no_pipe (l : List Char) : '|' ∉ normLbl l := by
  have h1 : '|' ∉ pyReplace ['|'] ['/'] l := not_mem_pyReplace_single (by simp) l
  exact not_mem_pyReplace (by simp) h1

theorem norm_no_space (l : List Char) : ' ' ∉ normLbl l :=
  not_mem_pyReplace_single (by simp) _

theorem pipe_not_mem_norm_contains (l : List Char) : pyIn ['|'] (normLbl l) = false := by
  rw [← Bool.not_eq_true]
  intro h
  exact norm_no_pipe l ((pyIn_singleton _ _).mp h)

/- Append and skip lemmas for `pyReplace`, used to compute what happens to
   labels of the shape `<token> ++ " | " ++ <outcome>`. -/

theorem pyReplace_self_append (pat rep rest : List Char) (hp : pat ≠ []) :
    pyReplace pat rep (pat ++ rest) = rep ++ pyReplace pat rep rest := by
  cases pat with
  | nil => exact absurd rfl hp
  | cons p ps =>
    have hm : (p :: ps).isPrefixOf (p :: (ps ++ rest)) = true := by
      have hsp := isPrefixOf_self_append (p :: ps) rest
      simp only [List.cons_append] at hsp
      exact hsp
    have hstep := pyReplace_cons_pos (p :: ps) rep p (ps ++ rest) hp hm
    simp only [List.cons_append] at hstep ⊢
    rw [hstep]
    congr 1
    have hdrop : List.drop (p :: ps).length ((p :: ps) ++ rest) = rest := List.drop_left _ _
    simp only [List.cons_append] at hdrop
    rw [hdrop]

theorem pyReplace_skip (p : Char) (ps rep : List Char) (c : Char) (rest : List Char)
    (hne : p ≠ c) :
    pyReplace (p :: ps) rep (c :: rest) = c :: pyReplace (p :: ps) rep rest :=
  pyReplace_cons_neg _ _ _ _ (isPrefixOf_cons_false hne)

theorem pyReplace_single_append (c : Char) (rep : List Char) (a b : List Char) :
    pyReplace [c] rep (a ++ b) = pyReplace [c] rep a ++ pyReplace [c] rep b := by
  induction a with
  | nil => rw [List.nil_append, pyReplace_nil _ _ (by simp), List.nil_append]
  | cons d a' ih =>
    by_cases hcd : c = d
    · subst hcd
      have hm1 : List.isPrefixOf [c] (c :: (a' ++ b)) = true := by
        simp [List.isPrefixOf, nil_isPrefixOf]
      have hm2 : List.isPrefixOf [c] (c :: a') = true := by
        simp [List.isPrefixOf, nil_isPrefixOf]
      rw [List.cons_append, pyReplace_cons_pos _ _ _ _ (by simp) hm1,
        pyReplace_cons_pos _ _ _ _ (by simp) hm2]
      simp only [List.length_cons, List.length_nil, List.drop_succ_cons, List.drop_zero]
      rw [ih, List.append_assoc]
    · rw [List.cons_append, pyReplace_skip _ _ _ _ _ hcd, pyReplace_skip _ _ _ _ _ hcd,
        ih, List.cons_append]

/- Strip and token lemmas. -/

theorem dropWhile_length_le {α : Type} (p : α → Bool) (l : List α) :
    (l.dropWhile p).length ≤ l.length := by
  induction l with
  | nil => simp
  | cons x xs ih =>
    rw [List.dropWhile_cons]
    split
    · exact le_trans ih (by simp)
    · simp

theorem head_not_space_of_stripped {c : Char} {rest : List Char}
    (h : (c :: rest).dropWhile isPySpace = c :: rest) : isPySpace c = false := by
  by_contra hc
  rw [Bool.not_eq_false] at hc
  rw [List.dropWhile_cons, if_pos hc] at h
  have hlen := dropWhile_length_le isPySpace rest
  rw [h] at hlen
  simp at hlen

theorem pyStrip_eq_self_of_stripped {t : List Char} (h : stripped t) : pyStrip t = t := by
  unfold pyStrip
  rw [h.1, h.2, List.reverse_reverse]

theorem pyStrip_append_space {t : List Char} (h : stripped t) (ht : t ≠ []) :
    pyStrip (t ++ [' ']) = t := by
  unfold pyStrip
  have h1 : (t ++ [' ']).dropWhile isPySpace = t ++ [' '] := by
    cases t with
    | nil => exact absurd rfl ht
    | cons c rest =>
      have hc := head_not_space_of_stripped h.1
      rw [List.cons_append, List.dropWhile_cons, if_neg (by simp [hc])]
  rw [h1, List.reverse_append]
  have harr : (([' '] : List Char).reverse ++ t.reverse) = ' ' :: t.reverse := by
    simp
  rw [harr, List.dropWhile_cons, if_pos (by simp [isPySpace])]
  rw [h.2, List.reverse_reverse]

theorem takeWhile_team {t : List Char} (hpipe : '|' ∉ t) (o : List Char) :
    (t ++ (' ' :: '|' :: o)).takeWhile (fun c => c != '|') = t ++ [' '] := by
  induction t with
  | nil =>
    rw [List.nil_append, List.takeWhile_cons, if_pos (by decide), List.takeWhile_cons,
      if_neg (by decide), List.nil_append]
  | cons c rest ih =>
    have hc : c ≠ '|' := fun hcc => hpipe (hcc ▸ List.mem_cons_self c rest)
    rw [List.cons_append, List.takeWhile_cons, if_pos (by simp [hc])]
    rw [ih (fun hmm => hpipe (List.mem_cons_of_mem _ hmm))]
    rfl

theorem sep_chars : chars " | " = ' ' :: '|' :: ' ' :: [] := by decide

theorem tok_team_label {t : List Char} (h : cleanName t) (o : List Char) :
    tok (t ++ chars " | " ++ o) = t := by
  obtain ⟨ht, hpipe, hs⟩ := h
  unfold tok
  have harr : t ++ chars " | " ++ o = t ++ (' ' :: '|' :: (' ' :: o)) := by
    rw [sep_chars]
    simp
  rw [harr, takeWhile_team hpipe]
  exact pyStrip_append_space hs ht

theorem pipe_mem_team_label (t o : List Char) : '|' ∈ t ++ chars " | " ++ o := by
  rw [sep_chars]
  simp

/- Computation of the replaced team label:
   `pyReplace t rep (t ++ " | " ++ o) = rep ++ " | " ++ pyReplace t rep o`. -/

theorem pyReplace_team_label {t : List Char} (rep : List Char) (h : cleanName t)
    (o : List Char) :
    pyReplace t rep (t ++ chars " | " ++ o) = rep ++ chars " | " ++ pyReplace t rep o := by
  obtain ⟨ht, hpipe, hs⟩ := h
  obtain ⟨c, rest, rfl⟩ : ∃ c rest, t = c :: rest := by
    cases t with
    | nil => exact absurd rfl ht
    | cons c rest => exact ⟨c, rest, rfl⟩
  have hc_space : isPySpace c = false := head_not_space_of_stripped hs.1
  have hc_ne_sp : c ≠ ' ' := by
    intro hcc
    rw [hcc] at hc_space
    simp [isPySpace] at hc_space
  have hc_ne_pipe : c ≠ '|' := fun hcc => hpipe (hcc ▸ List.mem_cons_self c rest)
  rw [sep_chars]
  have harr : (c :: rest) ++ ([' ', '|', ' '] : List Char) ++ o
      = (c :: rest) ++ (' ' :: '|' :: ' ' :: o) := by simp
  rw [harr, pyReplace_self_append _ _ _ ht]
  rw [pyReplace_skip _ _ _ _ _ hc_ne_sp, pyReplace_skip _ _ _ _ _ hc_ne_pipe,
    pyReplace_skip _ _ _ _ _ hc_ne_sp]
  simp

/- Distribution of `normLbl` over a one-character token followed by " | ". -/

theorem norm_token_label (c : Char) (hc1 : c ≠ '|') (hc2 : c ≠ ' ') (z : List Char) :
    normLbl ([c] ++ chars " | " ++ z) = c :: '/' :: normLbl z := by
  unfold normLbl
  rw [sep_chars]
  have harr : ([c] ++ ([' ', '|', ' '] : List Char) ++ z)
      = ([c, ' ', '|', ' '] : List Char) ++ z := by simp
  rw [harr, pyReplace_single_append]
  have h1 : pyReplace ['|'] ['/'] ([c, ' ', '|', ' '] : List Char) = c :: [' ', '/', ' '] := by
    have : ([c, ' ', '|', ' '] : List Char) = c :: [' ', '|', ' '] := rfl
    rw [this, pyReplace_skip _ _ _ _ _ (fun hcc => hc1 hcc.symm)]
    congr 1
  rw [h1]
  have harr2 : (c :: [' ', '/', ' '] : List Char) ++ pyReplace ['|'] ['/'] z
      = ([c, ' ', '/', ' '] : List Char) ++ pyReplace ['|'] ['/'] z := rfl
  rw [harr2, pyReplace_single_append]
  have h2 : pyReplace [' '] [] ([c, ' ', '/', ' '] : List Char) = [c, '/'] := by
    have : ([c, ' ', '/', ' '] : List Char) = c :: [' ', '/', ' '] := rfl
    rw [this, pyReplace_skip _ _ _ _ _ (fun hcc => hc2 hcc.symm)]
    congr 1
  rw [h2]
  rfl

/- Lemmas about `hdaFix`. -/

theorem pyReplace_mem_iff_of_not {c : Char} {pat rep : List Char}
    (hcp : c ∉ pat) (hcr : c ∉ rep) (s : List Char) :
    c ∈ pyReplace pat rep s ↔ c ∈ s := by
  constructor
  · intro h
    rcases mem_pyReplace h with h' | h'
    · exact absurd h' hcr
    · exact h'
  · exact mem_pyReplace_of_mem hcp s

theorem hdaFix_eq_self {l : List Char} (h1 : pyIn (chars "Home") l = false)
    (h2 : pyIn (chars "Draw") l = false) (h3 : pyIn (chars "Away") l = false) :
    hdaFix l = l := by
  unfold hdaFix
  rw [if_neg (by simp [h1]), if_neg (by simp [h2]), if_neg (by simp [h3])]

theorem hdaFix_pipe_iff (l : List Char) : '|' ∈ hdaFix l ↔ '|' ∈ l := by
  unfold hdaFix
  split
  · exact pyReplace_mem_iff_of_not (by decide) (by decide) l
  · split
    · exact pyReplace_mem_iff_of_not (by decide) (by decide) l
    · split
      · exact pyReplace_mem_iff_of_not (by decide) (by decide) l
      · exact Iff.rfl

/- Characterisation of `reorder`. -/

theorem foldl_reorder_step (ctx : FixtureCtx) :
    ∀ (l acc : List OddsEntry),
      l.foldl (fun acc k => if isBanker ctx k then k :: acc else acc ++ [k]) acc
      = (l.filter (fun e => isBanker ctx e)).reverse ++ acc
        ++ l.filter (fun e => !isBanker ctx e) := by
  intro l
  induction l with
  | nil => intro acc; simp
  | cons k ks ih =>
    intro acc
    by_cases hb : isBanker ctx k = true
    · simp only [List.foldl_cons, hb, if_pos, List.filter_cons]
      rw [ih (k :: acc)]
      simp [hb, List.append_assoc]
    · simp only [List.foldl_cons, List.filter_cons]
      rw [if_neg (by simp [hb]), ih (acc ++ [k])]
      simp [hb, List.append_assoc]

theorem reorder_eq (ctx : FixtureCtx) (l : List OddsEntry) :
    reorder ctx l = (l.filter (fun e => isBanker ctx e)).reverse
      ++ l.filter (fun e => !isBanker ctx e) := by
  unfold reorder
  rw [foldl_reorder_step]
  simp

theorem mem_reorder (ctx : FixtureCtx) (l : List OddsEntry) (e : OddsEntry) :
    e ∈ reorder ctx l ↔ e ∈ l := by
  rw [reorder_eq]
  simp only [List.mem_append, List.mem_reverse, List.mem_filter]
  constructor
  · rintro (⟨h, -⟩ | ⟨h, -⟩) <;> exact h
  · intro h
    by_cases hb : isBanker ctx e = true
    · exact Or.inl ⟨h, hb⟩
    · exact Or.inr ⟨h, by simp [hb]⟩

/- Characterisation of `innerFold`: the outer entry (position `idx`) is
   never modified by the inner loop (because `j != i` fails on it), so the
   sequential fold acts pointwise. -/

theorem innerFoldAux (g : OddsEntry → OddsEntry → OddsEntry) (idx : Nat)
    (hg : ∀ x, g x x = x) :
    ∀ (ps : List Nat) (st : List OddsEntry), ps.Nodup →
      (ps.foldl (fun s p => s.set p (g (s.getD idx dEntry) (s.getD p dEntry))) st).length
          = st.length
      ∧ ∀ q, (ps.foldl (fun s p => s.set p (g (s.getD idx dEntry) (s.getD p dEntry))) st).getD
            q dEntry
          = if q ∈ ps ∧ q < st.length then g (st.getD idx dEntry) (st.getD q dEntry)
            else st.getD q dEntry := by
  intro ps
  induction ps with
  | nil =>
    intro st _
    constructor
    · rfl
    · intro q
      simp
  | cons p ps' ih =>
    intro st hnd
    have hp_notin : p ∉ ps' := (List.nodup_cons.mp hnd).1
    have hnd' : ps'.Nodup := (List.nodup_cons.mp hnd).2
    set iv := st.getD idx dEntry with hiv
    set st' := st.set p (g (st.getD idx dEntry) (st.getD p dEntry)) with hst'
    have f1 : st'.length = st.length := List.length_set st p _
    have f2 : st'.getD idx dEntry = iv := by
      by_cases hpi : p = idx
      · subst hpi
        by_cases hplen : p < st.length
        · rw [hst', getD_set_self _ _ _ _ hplen, hg]
        · rw [hst', List.set_eq_of_length_le (Nat.le_of_not_lt hplen)]
      · rw [hst', getD_set_ne _ _ _ _ _ hpi]
    have f3 : ∀ q, st'.getD q dEntry
        = if q = p ∧ p < st.length then g iv (st.getD p dEntry) else st.getD q dEntry := by
      intro q
      by_cases hqp : q = p
      · subst hqp
        by_cases hplen : q < st.length
        · rw [hst', getD_set_self _ _ _ _ hplen, if_pos ⟨rfl, hplen⟩]
        · rw [hst', List.set_eq_of_length_le (Nat.le_of_not_lt hplen),
            if_neg (fun h => hplen h.2)]
      · rw [hst', getD_set_ne _ _ _ _ _ (fun h => hqp h.symm), if_neg (fun h => hqp h.1)]
    obtain ⟨ihlen, ihget⟩ := ih st' hnd'
    constructor
    · rw [List.foldl_cons, ← hst', ihlen, f1]
    · intro q
      rw [List.foldl_cons, ← hst', ihget q, f2, f1, f3 q]
      by_cases hq1 : q ∈ ps'
      · have hqp : q ≠ p := fun h => hp_notin (h ▸ hq1)
        have hinner : ¬(q = p ∧ p < st.length) := fun h => hqp h.1
        rw [if_neg hinner]
        by_cases hq2 : q < st.length
        · rw [if_pos (show q ∈ ps' ∧ q < st.length from ⟨hq1, hq2⟩),
            if_pos (show q ∈ p :: ps' ∧ q < st.length from ⟨List.mem_cons_of_mem _ hq1, hq2⟩)]
        · rw [if_neg (show ¬(q ∈ ps' ∧ q < st.length) from fun h => hq2 h.2),
            if_neg (show ¬(q ∈ p :: ps' ∧ q < st.length) from fun h => hq2 h.2)]
      · have houter : ¬(q ∈ ps' ∧ q < st.length) := fun h => hq1 h.1
        rw [if_neg houter]
        by_cases hqp : q = p
        · subst hqp
          by_cases hq2 : q < st.length
          · rw [if_pos (show q = q ∧ q < st.length from ⟨rfl, hq2⟩),
              if_pos (show q ∈ q :: ps' ∧ q < st.length from ⟨List.mem_cons_self _ _, hq2⟩)]
          · rw [if_neg (show ¬(q = q ∧ q < st.length) from fun h => hq2 h.2),
              if_neg (show ¬(q ∈ q :: ps' ∧ q < st.length) from fun h => hq2 h.2)]
        · have hinner : ¬(q = p ∧ p < st.length) := fun h => hqp h.1
          have hcons : ¬(q ∈ p :: ps' ∧ q < st.length) := by
            rintro ⟨hmem, -⟩
            rcases List.mem_cons.mp hmem with h' | h'
            · exact hqp h'
            · exact hq1 h'
          rw [if_neg hinner, if_neg hcons]

theorem innerFold_length (g : OddsEntry → OddsEntry → OddsEntry) (idx : Nat)
    (hg : ∀ x, g x x = x) (st : List OddsEntry) :
    (innerFold g idx st).length = st.length :=
  (innerFoldAux g idx hg (List.range st.length) st (List.nodup_range _)).1

theorem innerFold_getD (g : OddsEntry → OddsEntry → OddsEntry) (idx : Nat)
    (hg : ∀ x, g x x = x) (st : List OddsEntry) (q : Nat) :
    (innerFold g idx st).getD q dEntry
      = if q < st.length then g (st.getD idx dEntry) (st.getD q dEntry)
        else st.getD q dEntry := by
  have h := (innerFoldAux g idx hg (List.range st.length) st (List.nodup_range _)).2 q
  unfold innerFold
  rw [h]
  by_cases hq : q < st.length
  · rw [if_pos ⟨List.mem_range.mpr hq, hq⟩, if_pos hq]
  · rw [if_neg (fun h' => hq h'.2), if_neg hq]

theorem innerResolveF_self (team diffRep sameRep : List Char) (x : OddsEntry) :
    innerResolveF team diffRep sameRep x x = x := by
  unfold innerResolveF
  split
  · rw [if_neg (fun h => h.1 rfl), if_neg (fun h => h.1 rfl)]
  · rfl

/- Structural lemmas about one step of the main resolution loop. -/

theorem pyIn_pipe_nil : pyIn ['|'] ([] : List Char) = false := by decide

theorem pipe_in_bounds {st : List OddsEntry} {idx : Nat}
    (h : pyIn ['|'] ((st.getD idx dEntry).label) = true) : idx < st.length := by
  by_contra hc
  rw [getD_oob _ _ _ (Nat.le_of_not_lt hc)] at h
  rw [show dEntry.label = ([] : List Char) from rfl, pyIn_pipe_nil] at h
  simp at h

theorem foldl_set_length (f : List OddsEntry → Nat → OddsEntry) :
    ∀ (ps : List Nat) (st : List OddsEntry),
      (ps.foldl (fun s p => s.set p (f s p)) st).length = st.length := by
  intro ps
  induction ps with
  | nil => intro st; rfl
  | cons p ps' ih =>
    intro st
    rw [List.foldl_cons, ih, List.length_set]

theorem innerFold_len (g : OddsEntry → OddsEntry → OddsEntry) (idx : Nat)
    (st : List OddsEntry) : (innerFold g idx st).length = st.length :=
  foldl_set_length (fun s p => g (s.getD idx dEntry) (s.getD p dEntry)) _ st

theorem innerFold_getD_idx (g : OddsEntry → OddsEntry → OddsEntry) (idx : Nat)
    (hg : ∀ x, g x x = x) (st : List OddsEntry) :
    (innerFold g idx st).getD idx dEntry = st.getD idx dEntry := by
  rw [innerFold_getD g idx hg st idx]
  split
  · rw [hg]
  · rfl

theorem innerResolveF_no_pipe (team d s : List Char) (iv j : OddsEntry)
    (h : pyIn ['|'] j.label = false) : innerResolveF team d s iv j = j := by
  unfold innerResolveF
  rw [if_neg (by simp [h])]

theorem innerResolveF_cases (team d s : List Char) (iv j : OddsEntry) :
    innerResolveF team d s iv j = j
    ∨ ∃ lb, innerResolveF team d s iv j = {j with label := normLbl lb} := by
  unfold innerResolveF
  split
  · split
    · exact Or.inr ⟨_, rfl⟩
    · split
      · exact Or.inr ⟨_, rfl⟩
      · exact Or.inl rfl
  · exact Or.inl rfl

theorem getD_set_norm_cases (st : List OddsEntry) (idx q : Nat) (lb : List Char) :
    (st.set idx {st.getD idx dEntry with label := normLbl lb}).getD q dEntry = st.getD q dEntry
    ∨ ∃ lb', (st.set idx {st.getD idx dEntry with label := normLbl lb}).getD q dEntry
        = {st.getD q dEntry with label := normLbl lb'} := by
  by_cases hq : q = idx
  · subst hq
    by_cases hlen : q < st.length
    · exact Or.inr ⟨lb, getD_set_self _ _ _ _ hlen⟩
    · rw [List.set_eq_of_length_le (Nat.le_of_not_lt hlen)]
      exact Or.inl rfl
  · rw [getD_set_ne _ _ _ _ _ (fun h => hq h.symm)]
    exact Or.inl rfl

theorem shapeB_getD_ne (g : OddsEntry → OddsEntry → OddsEntry) (hg : ∀ x, g x x = x)
    (st : List OddsEntry) (idx q : Nat) (m : OddsEntry) (hq : q ≠ idx) :
    (resolveStep g idx st m).getD q dEntry
      = if q < st.length then g ((st.set idx m).getD idx dEntry) (st.getD q dEntry)
        else st.getD q dEntry := by
  unfold resolveStep
  rw [getD_set_ne _ _ _ _ _ (fun h => hq h.symm)]
  rw [innerFold_getD g idx hg (st.set idx m) q]
  rw [getD_set_ne _ _ _ _ _ (fun h => hq h.symm)]
  rw [List.length_set]

theorem shapeB_getD_idx (g : OddsEntry → OddsEntry → OddsEntry) (hg : ∀ x, g x x = x)
    (st : List OddsEntry) (idx : Nat) (m : OddsEntry) (hlen : idx < st.length) :
    (resolveStep g idx st m).getD idx dEntry
      = {m with label := normLbl m.label} := by
  unfold resolveStep
  have hlen2 : idx < ((innerFold g idx (st.set idx m))).length := by
    rw [innerFold_len, List.length_set]
    exact hlen
  rw [getD_set_self _ _ _ _ hlen2]
  rw [innerFold_getD_idx g idx hg]
  rw [getD_set_self _ _ _ _ hlen]

theorem stepC_clean (ctx : FixtureCtx) (st : List OddsEntry) (idx : Nat)
    (h : pyIn ['|'] ((st.getD idx dEntry).label) = false) :
    stepC ctx st idx = st := by
  have h' : pyIn ['|'] ((st[idx]?.getD dEntry).label) = false := by
    rw [← List.getD_eq_getElem?_getD]
    exact h
  simp only [stepC]
  rw [if_neg (by simp [h'])]

/-- Verbatim unfolding of `stepC`, stated with `List.getD` so that branch
    rewriting stays in one normal form. -/
theorem stepC_def (ctx : FixtureCtx) (st : List OddsEntry) (idx : Nat) :
    stepC ctx st idx =
    (let e := st.getD idx dEntry
    if pyIn ['|'] e.label then
      let team := tok e.label
      if team = chars "X" then
        st.set idx {e with label := normLbl e.label}
      else if pyIn team ctx.home || pyIn ctx.home team then
        let st1 := st.set idx {e with label := pyReplace team (chars "1") e.label}
        let st2 := innerFold (innerResolveF team (chars "2") (chars "1")) idx st1
        st2.set idx {st2.getD idx dEntry with label := normLbl (st2.getD idx dEntry).label}
      else if pyIn team ctx.away || pyIn ctx.away team then
        let st1 := st.set idx {e with label := pyReplace team (chars "2") e.label}
        let st2 := innerFold (innerResolveF team (chars "1") (chars "2")) idx st1
        st2.set idx {st2.getD idx dEntry with label := normLbl (st2.getD idx dEntry).label}
      else if upperEq team then
        if team = ctx.homeShort then
          st.set idx {e with label := normLbl (pyReplace team (chars "1") e.label)}
        else if team = ctx.awayShort then
          st.set idx {e with label := normLbl (pyReplace team (chars "2") e.label)}
        else
          st.set idx {e with label := normLbl e.label}
      else if (pySplitWs team).length > 1 then
        if (pySplitWs ctx.home).length > 1 ∧ structMatch team ctx.home then
          st.set idx {e with label := normLbl (pyReplace team (chars "1") e.label)}
        else if (pySplitWs ctx.away).length > 1 ∧ structMatch team ctx.away then
          st.set idx {e with label := normLbl (pyReplace team (chars "2") e.label)}
        else if levenshteinPy team ctx.home ≥ levenshteinPy team ctx.away then
          st.set idx {e with label := normLbl (pyReplace team (chars "2") e.label)}
        else
          st.set idx {e with label := normLbl (pyReplace team (chars "1") e.label)}
      else if levenshteinPy team ctx.home ≥ levenshteinPy team ctx.away then
        st.set idx {e with label := normLbl (pyReplace team (chars "2") e.label)}
      else
        st.set idx {e with label := normLbl (pyReplace team (chars "1") e.label)}
    else st) := rfl

/- Branch extraction lemmas for `stepC`. -/

theorem stepC_branch_x (ctx : FixtureCtx) (st : List OddsEntry) (idx : Nat)
    (hp : pyIn ['|'] ((st.getD idx dEntry).label) = true)
    (hx : tok (st.getD idx dEntry).label = chars "X") :
    stepC ctx st idx
      = st.set idx {st.getD idx dEntry with label := normLbl (st.getD idx dEntry).label} := by
  rw [stepC_def]
  simp only []
  rw [if_pos hp, if_pos hx]

theorem stepC_branch_home (ctx : FixtureCtx) (st : List OddsEntry) (idx : Nat)
    (hp : pyIn ['|'] ((st.getD idx dEntry).label) = true)
    (hx : tok (st.getD idx dEntry).label ≠ chars "X")
    (hh : (pyIn (tok (st.getD idx dEntry).label) ctx.home
        || pyIn ctx.home (tok (st.getD idx dEntry).label)) = true) :
    stepC ctx st idx
      = resolveStep (innerResolveF (tok (st.getD idx dEntry).label) (chars "2") (chars "1"))
          idx st
          {st.getD idx dEntry with
            label := pyReplace (tok (st.getD idx dEntry).label) (chars "1")
              (st.getD idx dEntry).label} := by
  rw [stepC_def]
  simp only []
  rw [if_pos hp, if_neg hx, if_pos hh]
  rfl

theorem stepC_branch_away (ctx : FixtureCtx) (st : List OddsEntry) (idx : Nat)
    (hp : pyIn ['|'] ((st.getD idx dEntry).label) = true)
    (hx : tok (st.getD idx dEntry).label ≠ chars "X")
    (hh : (pyIn (tok (st.getD idx dEntry).label) ctx.home
        || pyIn ctx.home (tok (st.getD idx dEntry).label)) = false)
    (ha : (pyIn (tok (st.getD idx dEntry).label) ctx.away
        || pyIn ctx.away (tok (st.getD idx dEntry).label)) = true) :
    stepC ctx st idx
      = resolveStep (innerResolveF (tok (st.getD idx dEntry).label) (chars "1") (chars "2"))
          idx st
          {st.getD idx dEntry with
            label := pyReplace (tok (st.getD idx dEntry).label) (chars "2")
              (st.getD idx dEntry).label} := by
  rw [stepC_def]
  simp only []
  rw [if_pos hp, if_neg hx, if_neg (by rw [hh]; simp), if_pos ha]
  rfl

theorem stepC_branch_acr_home (ctx : FixtureCtx) (st : List OddsEntry) (idx : Nat)
    (hp : pyIn ['|'] ((st.getD idx dEntry).label) = true)
    (hx : tok (st.getD idx dEntry).label ≠ chars "X")
    (hh : (pyIn (tok (st.getD idx dEntry).label) ctx.home
        || pyIn ctx.home (tok (st.getD idx dEntry).label)) = false)
    (ha : (pyIn (tok (st.getD idx dEntry).label) ctx.away
        || pyIn ctx.away (tok (st.getD idx dEntry).label)) = false)
    (hu : upperEq (tok (st.getD idx dEntry).label) = true)
    (hhs : tok (st.getD idx dEntry).label = ctx.homeShort) :
    stepC ctx st idx
      = st.set idx {st.getD idx dEntry with
          label := normLbl (pyReplace (tok (st.getD idx dEntry).label) (chars "1")
            (st.getD idx dEntry).label)} := by
  rw [stepC_def]
  simp only []
  rw [if_pos hp, if_neg hx, if_neg (by rw [hh]; simp), if_neg (by rw [ha]; simp), if_pos hu,
    if_pos hhs]

theorem stepC_branch_acr_away (ctx : FixtureCtx) (st : List OddsEntry) (idx : Nat)
    (hp : pyIn ['|'] ((st.getD idx dEntry).label) = true)
    (hx : tok (st.getD idx dEntry).label ≠ chars "X")
    (hh : (pyIn (tok (st.getD idx dEntry).label) ctx.home
        || pyIn ctx.home (tok (st.getD idx dEntry).label)) = false)
    (ha : (pyIn (tok (st.getD idx dEntry).label) ctx.away
        || pyIn ctx.away (tok (st.getD idx dEntry).label)) = false)
    (hu : upperEq (tok (st.getD idx dEntry).label) = true)
    (hhs : tok (st.getD idx dEntry).label ≠ ctx.homeShort)
    (has : tok (st.getD idx dEntry).label = ctx.awayShort) :
    stepC ctx st idx
      = st.set idx {st.getD idx dEntry with
          label := normLbl (pyReplace (tok (st.getD idx dEntry).label) (chars "2")
            (st.getD idx dEntry).label)} := by
  rw [stepC_def]
  simp only []
  rw [if_pos hp, if_neg hx, if_neg (by rw [hh]; simp), if_neg (by rw [ha]; simp), if_pos hu,
    if_neg hhs, if_pos has]

theorem stepC_branch_acr_none (ctx : FixtureCtx) (st : List OddsEntry) (idx : Nat)
    (hp : pyIn ['|'] ((st.getD idx dEntry).label) = true)
    (hx : tok (st.getD idx dEntry).label ≠ chars "X")
    (hh : (pyIn (tok (st.getD idx dEntry).label) ctx.home
        || pyIn ctx.home (tok (st.getD idx dEntry).label)) = false)
    (ha : (pyIn (tok (st.getD idx dEntry).label) ctx.away
        || pyIn ctx.away (tok (st.getD idx dEntry).label)) = false)
    (hu : upperEq (tok (st.getD idx dEntry).label) = true)
    (hhs : tok (st.getD idx dEntry).label ≠ ctx.homeShort)
    (has : tok (st.getD idx dEntry).label ≠ ctx.awayShort) :
    stepC ctx st idx
      = st.set idx {st.getD idx dEntry with
          label := normLbl (st.getD idx dEntry).label} := by
  rw [stepC_def]
  simp only []
  rw [if_pos hp, if_neg hx, if_neg (by rw [hh]; simp), if_neg (by rw [ha]; simp), if_pos hu,
    if_neg hhs, if_neg has]

theorem stepC_branch_single_lev (ctx : FixtureCtx) (st : List OddsEntry) (idx : Nat)
    (hp : pyIn ['|'] ((st.getD idx dEntry).label) = true)
    (hx : tok (st.getD idx dEntry).label ≠ chars "X")
    (hh : (pyIn (tok (st.getD idx dEntry).label) ctx.home
        || pyIn ctx.home (tok (st.getD idx dEntry).label)) = false)
    (ha : (pyIn (tok (st.getD idx dEntry).label) ctx.away
        || pyIn ctx.away (tok (st.getD idx dEntry).label)) = false)
    (hu : upperEq (tok (st.getD idx dEntry).label) = false)
    (hw : ¬ (pySplitWs (tok (st.getD idx dEntry).label)).length > 1) :
    stepC ctx st idx
      = st.set idx {st.getD idx dEntry with
          label := normLbl (pyReplace (tok (st.getD idx dEntry).label)
            (if levenshteinPy (tok (st.getD idx dEntry).label) ctx.home
                ≥ levenshteinPy (tok (st.getD idx dEntry).label) ctx.away
              then chars "2" else chars "1")
            (st.getD idx dEntry).label)} := by
  rw [stepC_def]
  simp only []
  rw [if_pos hp, if_neg hx, if_neg (by rw [hh]; simp), if_neg (by rw [ha]; simp),
    if_neg (by rw [hu]; simp), if_neg hw]
  by_cases hlev : levenshteinPy (tok (st.getD idx dEntry).label) ctx.home
      ≥ levenshteinPy (tok (st.getD idx dEntry).label) ctx.away
  · rw [if_pos hlev, if_pos hlev]
  · rw [if_neg hlev, if_neg hlev]

/-- Umbrella shape lemma: when the current entry has a `"|"`, the step
    either only rewrites the current entry to a normalised label, or takes
    one of the two `resolveStep` branches. -/
theorem stepC_shape (ctx : FixtureCtx) (st : List OddsEntry) (idx : Nat)
    (hp : pyIn ['|'] ((st.getD idx dEntry).label) = true) :
    (∃ lb, stepC ctx st idx = st.set idx {st.getD idx dEntry with label := normLbl lb})
    ∨ ∃ team m,
        (stepC ctx st idx = resolveStep (innerResolveF team (chars "2") (chars "1")) idx st m
          ∨ stepC ctx st idx = resolveStep (innerResolveF team (chars "1") (chars "2")) idx st m)
        ∧ m.value = (st.getD idx dEntry).value ∧ m.total = (st.getD idx dEntry).total := by
  rw [stepC_def]
  simp only []
  rw [if_pos hp]
  by_cases hx : tok (st.getD idx dEntry).label = chars "X"
  · rw [if_pos hx]
    exact Or.inl ⟨_, rfl⟩
  · rw [if_neg hx]
    by_cases hh : (pyIn (tok (st.getD idx dEntry).label) ctx.home
        || pyIn ctx.home (tok (st.getD idx dEntry).label)) = true
    · rw [if_pos hh]
      exact Or.inr ⟨_, _, Or.inl rfl, rfl, rfl⟩
    · rw [if_neg hh]
      by_cases ha : (pyIn (tok (st.getD idx dEntry).label) ctx.away
          || pyIn ctx.away (tok (st.getD idx dEntry).label)) = true
      · rw [if_pos ha]
        exact Or.inr ⟨_, _, Or.inr rfl, rfl, rfl⟩
      · rw [if_neg ha]
        by_cases hu : upperEq (tok (st.getD idx dEntry).label) = true
        · rw [if_pos hu]
          by_cases hhs : tok (st.getD idx dEntry).label = ctx.homeShort
          · rw [if_pos hhs]
            exact Or.inl ⟨_, rfl⟩
          · rw [if_neg hhs]
            by_cases has : tok (st.getD idx dEntry).label = ctx.awayShort
            · rw [if_pos has]
              exact Or.inl ⟨_, rfl⟩
            · rw [if_neg has]
              exact Or.inl ⟨_, rfl⟩
        · rw [if_neg hu]
          by_cases hw : (pySplitWs (tok (st.getD idx dEntry).label)).length > 1
          · rw [if_pos hw]
            by_cases h6 : (pySplitWs ctx.home).length > 1
                ∧ structMatch (tok (st.getD idx dEntry).label) ctx.home
            · rw [if_pos h6]
              exact Or.inl ⟨_, rfl⟩
            · rw [if_neg h6]
              by_cases h7 : (pySplitWs ctx.away).length > 1
                  ∧ structMatch (tok (st.getD idx dEntry).label) ctx.away
              · rw [if_pos h7]
                exact Or.inl ⟨_, rfl⟩
              · rw [if_neg h7]
                by_cases h8 : levenshteinPy (tok (st.getD idx dEntry).label) ctx.home
                    ≥ levenshteinPy (tok (st.getD idx dEntry).label) ctx.away
                · rw [if_pos h8]
                  exact Or.inl ⟨_, rfl⟩
                · rw [if_neg h8]
                  exact Or.inl ⟨_, rfl⟩
          · rw [if_neg hw]
            by_cases h8 : levenshteinPy (tok (st.getD idx dEntry).label) ctx.home
                ≥ levenshteinPy (tok (st.getD idx dEntry).label) ctx.away
            · rw [if_pos h8]
              exact Or.inl ⟨_, rfl⟩
            · rw [if_neg h8]
              exact Or.inl ⟨_, rfl⟩

/- Consequences of the shape lemma. -/

theorem entry_norm_congr {m x : OddsEntry} (hv : m.value = x.value) (ht : m.total = x.total)
    (lb : List Char) :
    ({m with label := normLbl lb} : OddsEntry) = {x with label := normLbl lb} := by
  obtain ⟨ml, mv, mt⟩ := m
  obtain ⟨xl, xv, xt⟩ := x
  simp only at hv ht
  show (⟨normLbl lb, mv, mt⟩ : OddsEntry) = ⟨normLbl lb, xv, xt⟩
  rw [hv, ht]

theorem resolveStep_length (g : OddsEntry → OddsEntry → OddsEntry) (idx : Nat)
    (st : List OddsEntry) (m : OddsEntry) :
    (resolveStep g idx st m).length = st.length := by
  unfold resolveStep
  simp only []
  rw [List.length_set, innerFold_len, List.length_set]

theorem resolveStep_getD_cases (g : OddsEntry → OddsEntry → OddsEntry)
    (hg : ∀ x, g x x = x)
    (hgc : ∀ iv j, g iv j = j ∨ ∃ lb, g iv j = {j with label := normLbl lb})
    (st : List OddsEntry) (idx q : Nat) (m : OddsEntry)
    (hv : m.value = (st.getD idx dEntry).value) (ht : m.total = (st.getD idx dEntry).total) :
    (resolveStep g idx st m).getD q dEntry = st.getD q dEntry
    ∨ ∃ lb, (resolveStep g idx st m).getD q dEntry
        = {st.getD q dEntry with label := normLbl lb} := by
  by_cases hq : q = idx
  · subst hq
    by_cases hlen : q < st.length
    · rw [shapeB_getD_idx g hg st q m hlen]
      exact Or.inr ⟨m.label, entry_norm_congr hv ht _⟩
    · left
      rw [getD_oob _ _ _ (le_of_eq_of_le (resolveStep_length g q st m) (Nat.le_of_not_lt hlen)),
        getD_oob _ _ _ (Nat.le_of_not_lt hlen)]
  · rw [shapeB_getD_ne g hg st idx q m hq]
    split
    · exact hgc _ _
    · exact Or.inl rfl

theorem stepC_length (ctx : FixtureCtx) (st : List OddsEntry) (idx : Nat) :
    (stepC ctx st idx).length = st.length := by
  by_cases hp : pyIn ['|'] ((st.getD idx dEntry).label) = true
  · rcases stepC_shape ctx st idx hp with ⟨lb, hs⟩ | ⟨team, m, hor, -, -⟩
    · rw [hs, List.length_set]
    · rcases hor with hs | hs <;> rw [hs, resolveStep_length]
  · rw [stepC_clean ctx st idx (by simpa using hp)]

theorem stepC_getD_cases (ctx : FixtureCtx) (st : List OddsEntry) (idx q : Nat) :
    (stepC ctx st idx).getD q dEntry = st.getD q dEntry
    ∨ ∃ lb, (stepC ctx st idx).getD q dEntry
        = {st.getD q dEntry with label := normLbl lb} := by
  by_cases hp : pyIn ['|'] ((st.getD idx dEntry).label) = true
  · rcases stepC_shape ctx st idx hp with ⟨lb, hs⟩ | ⟨team, m, hor, hv, ht⟩
    · rw [hs]
      exact getD_set_norm_cases st idx q lb
    · rcases hor with hs | hs
      · rw [hs]
        exact resolveStep_getD_cases _ (innerResolveF_self _ _ _) (innerResolveF_cases _ _ _)
          st idx q m hv ht
      · rw [hs]
        exact resolveStep_getD_cases _ (innerResolveF_self _ _ _) (innerResolveF_cases _ _ _)
          st idx q m hv ht
  · rw [stepC_clean ctx st idx (by simpa using hp)]
    exact Or.inl rfl

theorem stepC_preserves_clean (ctx : FixtureCtx) (st : List OddsEntry) (idx q : Nat)
    (hq : pyIn ['|'] ((st.getD q dEntry).label) = false) :
    (stepC ctx st idx).getD q dEntry = st.getD q dEntry := by
  by_cases hp : pyIn ['|'] ((st.getD idx dEntry).label) = true
  · have hqi : q ≠ idx := by
      intro h
      rw [h, hp] at hq
      simp at hq
    rcases stepC_shape ctx st idx hp with ⟨lb, hs⟩ | ⟨team, m, hor, -, -⟩
    · rw [hs, getD_set_ne _ _ _ _ _ (fun h => hqi h.symm)]
    · have key : ∀ (g : OddsEntry → OddsEntry → OddsEntry), (∀ x, g x x = x) →
          (∀ iv j, pyIn ['|'] j.label = false → g iv j = j) →
          stepC ctx st idx = resolveStep g idx st m →
          (stepC ctx st idx).getD q dEntry = st.getD q dEntry := by
        intro g hg hclean hs
        rw [hs, shapeB_getD_ne g hg st idx q m hqi]
        split
        · exact hclean _ _ hq
        · rfl
      rcases hor with hs | hs
      · exact key _ (innerResolveF_self _ _ _)
          (fun iv j hcl => innerResolveF_no_pipe _ _ _ iv j hcl) hs
      · exact key _ (innerResolveF_self _ _ _)
          (fun iv j hcl => innerResolveF_no_pipe _ _ _ iv j hcl) hs
  · rw [stepC_clean ctx st idx (by simpa using hp)]

theorem stepC_getD_idx_norm (ctx : FixtureCtx) (st : List OddsEntry) (idx : Nat)
    (hp : pyIn ['|'] ((st.getD idx dEntry).label) = true) :
    ∃ lb, (stepC ctx st idx).getD idx dEntry
      = {st.getD idx dEntry with label := normLbl lb} := by
  have hlen := pipe_in_bounds hp
  rcases stepC_shape ctx st idx hp with ⟨lb, hs⟩ | ⟨team, m, hor, hv, ht⟩
  · rw [hs, getD_set_self _ _ _ _ hlen]
    exact ⟨lb, rfl⟩
  · have key : ∀ (g : OddsEntry → OddsEntry → OddsEntry), (∀ x, g x x = x) →
        stepC ctx st idx = resolveStep g idx st m →
        ∃ lb, (stepC ctx st idx).getD idx dEntry
          = {st.getD idx dEntry with label := normLbl lb} := by
      intro g hg hs
      rw [hs, shapeB_getD_idx g hg st idx m hlen]
      exact ⟨m.label, entry_norm_congr hv ht _⟩
    rcases hor with hs | hs
    · exact key _ (innerResolveF_self _ _ _) hs
    · exact key _ (innerResolveF_self _ _ _) hs

/- Lemmas about folding `stepC` over an index list. -/

theorem dEntry_no_pipe : pyIn ['|'] dEntry.label = false := by decide

theorem foldl_stepC_clean (ctx : FixtureCtx) :
    ∀ (is : List Nat) (st : List OddsEntry),
      (∀ e ∈ st, pyIn ['|'] e.label = false) → is.foldl (stepC ctx) st = st := by
  intro is
  induction is with
  | nil => intro st _; rfl
  | cons i is' ih =>
    intro st h
    have hc : pyIn ['|'] ((st.getD i dEntry).label) = false := by
      by_cases hl : i < st.length
      · exact h _ (getD_mem st i dEntry hl)
      · rw [getD_oob _ _ _ (Nat.le_of_not_lt hl)]
        exact dEntry_no_pipe
    rw [List.foldl_cons, stepC_clean ctx st i hc, ih st h]

theorem foldl_stepC_preserves_clean (ctx : FixtureCtx) :
    ∀ (is : List Nat) (st : List OddsEntry) (q : Nat),
      pyIn ['|'] ((st.getD q dEntry).label) = false →
      (is.foldl (stepC ctx) st).getD q dEntry = st.getD q dEntry := by
  intro is
  induction is with
  | nil => intro st q _; rfl
  | cons i is' ih =>
    intro st q hq
    rw [List.foldl_cons]
    have h1 := stepC_preserves_clean ctx st i q hq
    have h2 : pyIn ['|'] (((stepC ctx st i).getD q dEntry).label) = false := by
      rw [h1]; exact hq
    rw [ih (stepC ctx st i) q h2, h1]

theorem foldl_stepC_length (ctx : FixtureCtx) :
    ∀ (is : List Nat) (st : List OddsEntry),
      (is.foldl (stepC ctx) st).length = st.length := by
  intro is
  induction is with
  | nil => intro st; rfl
  | cons i is' ih =>
    intro st
    rw [List.foldl_cons, ih, stepC_length]

/- The global invariant of the main loop, used for claim C1: positions
   already visited are pipe-free, and every position is either untouched or
   carries a normalised label over the initial entry's value/total. -/

theorem phaseC_invariant (ctx : FixtureCtx) (init : List OddsEntry) :
    ∀ (k : Nat),
      ((List.range k).foldl (stepC ctx) init).length = init.length
      ∧ (∀ q, ((List.range k).foldl (stepC ctx) init).getD q dEntry = init.getD q dEntry
          ∨ ∃ lb, ((List.range k).foldl (stepC ctx) init).getD q dEntry
              = {init.getD q dEntry with label := normLbl lb})
      ∧ (∀ q, q < k →
          pyIn ['|'] ((((List.range k).foldl (stepC ctx) init)).getD q dEntry).label
            = false) := by
  intro k
  induction k with
  | zero =>
    refine ⟨rfl, fun q => Or.inl rfl, fun q hq => absurd hq (by simp)⟩
  | succ k ih =>
    obtain ⟨ihlen, ihcases, ihclean⟩ := ih
    rw [List.range_succ, List.foldl_append]
    set stk := (List.range k).foldl (stepC ctx) init with hstk
    simp only [List.foldl_cons, List.foldl_nil]
    refine ⟨?_, ?_, ?_⟩
    · rw [stepC_length, ihlen]
    · intro q
      rcases stepC_getD_cases ctx stk k q with h | ⟨lb, h⟩
      · rw [h]
        exact ihcases q
      · rw [h]
        rcases ihcases q with h2 | ⟨lb2, h2⟩
        · rw [h2]
          exact Or.inr ⟨lb, rfl⟩
        · rw [h2]
          exact Or.inr ⟨lb, entry_norm_congr rfl rfl _⟩
    · intro q hq
      rcases Nat.lt_succ_iff_lt_or_eq.mp hq with hq' | hq'
      · have hclean := ihclean q hq'
        rw [stepC_preserves_clean ctx stk k q hclean]
        exact hclean
      · subst hq'
        by_cases hp : pyIn ['|'] ((stk.getD q dEntry).label) = true
        · obtain ⟨lb, h⟩ := stepC_getD_idx_norm ctx stk q hp
          rw [h]
          exact pipe_not_mem_norm_contains lb
        · rw [stepC_preserves_clean ctx stk q q (by simpa using hp)]
          simpa using hp

theorem phaseB_mem {x : OddsEntry} {st : List OddsEntry} (h : x ∈ phaseB st) :
    ∃ e0 ∈ st, x = hdaEntry e0 := by
  unfold phaseB at h
  obtain ⟨e0, he0, hx⟩ := List.mem_map.mp h
  exact ⟨e0, he0, hx.symm⟩

theorem hdaEntry_pipe_iff (e : OddsEntry) :
    pyIn ['|'] ((hdaEntry e).label) = true ↔ pyIn ['|'] e.label = true := by
  show pyIn ['|'] (hdaFix e.label) = true ↔ _
  rw [pyIn_singleton, pyIn_singleton]
  exact hdaFix_pipe_iff e.label

/-- Claim C1, amended.  After `standardise_columns` on a list of odds
    entries, no label in the returned list contains the `'|'` character, and
    every returned label that still contains a space character belongs to an
    entry whose input label contained no `'|'` (such entries only received
    the Home/Draw/Away substitution, which can leave spaces and team names
    in place).  The claim as frozen — no whitespace and no raw team-name
    occurrence in any output label — is refuted by
    `claimC1_counterexample`. -/
theorem claimC1_amended (ctx : FixtureCtx) (l : List OddsEntry) :
    (∀ e ∈ standardiseList ctx l, pyIn ['|'] e.label = false)
    ∧ (∀ e ∈ standardiseList ctx l, ' ' ∈ e.label →
        ∃ e0 ∈ l, pyIn ['|'] e0.label = false ∧ e = hdaEntry e0) := by
  have main : ∀ e ∈ standardiseList ctx l,
      pyIn ['|'] e.label = false
      ∧ (' ' ∈ e.label → ∃ e0 ∈ l, pyIn ['|'] e0.label = false ∧ e = hdaEntry e0) := by
    intro e he
    have hrepr : standardiseList ctx l
        = (List.range (phaseB (reorder ctx l)).length).foldl (stepC ctx)
            (phaseB (reorder ctx l)) := rfl
    set init := phaseB (reorder ctx l) with hinit
    rw [hrepr] at he
    obtain ⟨hlen, hcases, hclean⟩ := phaseC_invariant ctx init init.length
    obtain ⟨q, hq, hget⟩ := List.mem_iff_getElem.mp he
    have hql : q < init.length := by rw [← hlen]; exact hq
    have hgd : ((List.range init.length).foldl (stepC ctx) init).getD q dEntry = e := by
      rw [List.getD_eq_getElem _ _ hq, hget]
    have hpe : pyIn ['|'] e.label = false := by
      have h := hclean q hql
      rw [hgd] at h
      exact h
    refine ⟨hpe, ?_⟩
    intro hsp
    rcases hcases q with hcase | ⟨lb, hcase⟩
    · rw [hgd] at hcase
      have hmem0 : init.getD q dEntry ∈ init := getD_mem _ _ _ hql
      rw [← hcase] at hmem0
      obtain ⟨e0, he0, hx⟩ := phaseB_mem hmem0
      have he0l : e0 ∈ l := (mem_reorder ctx l e0).mp he0
      have hp0 : pyIn ['|'] e0.label = false := by
        by_contra hcon
        rw [Bool.not_eq_false] at hcon
        have hpipe := (hdaEntry_pipe_iff e0).mpr hcon
        rw [← hx] at hpipe
        rw [hpipe] at hpe
        simp at hpe
      exact ⟨e0, he0l, hp0, hx⟩
    · exfalso
      rw [hgd] at hcase
      have hsp' : ' ' ∈ normLbl lb := by
        rw [hcase] at hsp
        exact hsp
      exact norm_no_space lb hsp'
  exact ⟨fun e he => (main e he).1, fun e he => (main e he).2⟩

/-- Claim C1, counterexample to the claim as frozen: with home `"Man Utd"`
    and away `"Leeds"`, the input labels `"Man Utd"` (no `'|'`) and
    `"X | Leeds"` come back as `"Man Utd"` — which contains whitespace and
    the raw home name — and `"X/Leeds"` — which contains the raw away
    name. -/
theorem claimC1_counterexample :
    ¬ (∀ e ∈ standardiseList ⟨chars "Man Utd", chars "Leeds", chars "MUN", chars "LEE"⟩
          [⟨chars "Man Utd", chars "1.9", none⟩, ⟨chars "X | Leeds", chars "3.1", none⟩],
        pyIn ['|'] e.label = false ∧ (∀ c ∈ e.label, isPySpace c = false)
        ∧ pyIn (chars "Man Utd") e.label = false ∧ pyIn (chars "Leeds") e.label = false) := by
  decide

/-- Claim C1, witness for the amended theorem at a concrete input. -/
theorem claimC1_witness :
    pyIn ['|'] ((⟨chars "X/Leeds", chars "3.1", none⟩ : OddsEntry).label) = false
    ∧ ∃ e0 ∈ [(⟨chars "Man Utd", chars "1.9", none⟩ : OddsEntry),
        ⟨chars "X | Leeds", chars "3.1", none⟩],
        pyIn ['|'] e0.label = false
        ∧ (⟨chars "Man Utd", chars "1.9", none⟩ : OddsEntry) = hdaEntry e0 := by
  constructor
  · exact (claimC1_amended ⟨chars "Man Utd", chars "Leeds", chars "MUN", chars "LEE"⟩
      [⟨chars "Man Utd", chars "1.9", none⟩, ⟨chars "X | Leeds", chars "3.1", none⟩]).1
      ⟨chars "X/Leeds", chars "3.1", none⟩ (by decide)
  · exact (claimC1_amended ⟨chars "Man Utd", chars "Leeds", chars "MUN", chars "LEE"⟩
      [⟨chars "Man Utd", chars "1.9", none⟩, ⟨chars "X | Leeds", chars "3.1", none⟩]).2
      ⟨chars "Man Utd", chars "1.9", none⟩ (by decide) (by decide)

/- Claim C7: idempotence on already-canonical input. -/

theorem pyIn_pipe_false_of_not_mem {lbl : List Char} (h : '|' ∉ lbl) :
    pyIn ['|'] lbl = false := by
  by_contra hc
  rw [Bool.not_eq_false, pyIn_singleton] at hc
  exact h hc

theorem isBanker_false_of_no_pipe (ctx : FixtureCtx) (e : OddsEntry)
    (h : pyIn ['|'] e.label = false) : isBanker ctx e = false := by
  unfold isBanker
  rw [h]
  rfl

theorem hdaEntry_eq_self {e : OddsEntry} (h : hdaFix e.label = e.label) : hdaEntry e = e := by
  unfold hdaEntry
  obtain ⟨lbl, v, t⟩ := e
  simp only at h
  show (⟨hdaFix lbl, v, t⟩ : OddsEntry) = ⟨lbl, v, t⟩
  rw [h]

theorem map_id_of_mem {α : Type} (f : α → α) :
    ∀ (l : List α), (∀ e ∈ l, f e = e) → l.map f = l := by
  intro l
  induction l with
  | nil => intro _; rfl
  | cons x xs ih =>
    intro h
    rw [List.map_cons, h x (List.mem_cons_self _ _), ih (fun e he => h e (List.mem_cons_of_mem _ he))]

/-- Claim C7: `standardise_columns` is the identity on a list whose labels
    are already canonical (no `'|'`, no whitespace, none of the literal
    words `"Home"`, `"Draw"`, `"Away"` — which holds for the canonical
    vocabulary `1`, `X`, `2`, `1/Yes`, `Over`, `Under`, …); hence a second
    application returns the same result as the first. -/
theorem claimC7_idempotent (ctx : FixtureCtx) (l : List OddsEntry)
    (h : ∀ e ∈ l, canonicalLbl e.label) :
    standardiseList ctx l = l
    ∧ standardiseList ctx (standardiseList ctx l) = standardiseList ctx l := by
  have hpipe : ∀ e ∈ l, pyIn ['|'] e.label = false :=
    fun e he => pyIn_pipe_false_of_not_mem (h e he).1
  have h1 : standardiseList ctx l = l := by
    have hre : reorder ctx l = l := by
      rw [reorder_eq]
      have hf1 : l.filter (fun e => isBanker ctx e) = [] := by
        rw [List.filter_eq_nil_iff]
        intro e he
        rw [isBanker_false_of_no_pipe ctx e (hpipe e he)]
        simp
      have hf2 : l.filter (fun e => !isBanker ctx e) = l := by
        rw [List.filter_eq_self]
        intro e he
        rw [isBanker_false_of_no_pipe ctx e (hpipe e he)]
        rfl
      rw [hf1, hf2]
      rfl
    have hpb : phaseB l = l :=
      map_id_of_mem _ l (fun e he => hdaEntry_eq_self
        (hdaFix_eq_self (h e he).2.2.1 (h e he).2.2.2.1 (h e he).2.2.2.2))
    show phaseC ctx (phaseB (reorder ctx l)) = l
    rw [hre, hpb]
    exact foldl_stepC_clean ctx _ l hpipe
  exact ⟨h1, by rw [h1]; exact h1⟩

/-- Claim C7, witness: a concrete already-canonical list is returned
    unchanged, twice. -/
theorem claimC7_witness :
    standardiseList ⟨chars "Chelsea", chars "Arsenal", chars "CHE", chars "ARS"⟩
        [⟨chars "1/Yes", chars "1.9", none⟩, ⟨chars "X", chars "3.1", none⟩,
          ⟨chars "Over", chars "2.0", some (chars "2.5")⟩]
      = [⟨chars "1/Yes", chars "1.9", none⟩, ⟨chars "X", chars "3.1", none⟩,
          ⟨chars "Over", chars "2.0", some (chars "2.5")⟩]
    ∧ standardiseList ⟨chars "Chelsea", chars "Arsenal", chars "CHE", chars "ARS"⟩
        (standardiseList ⟨chars "Chelsea", chars "Arsenal", chars "CHE", chars "ARS"⟩
          [⟨chars "1/Yes", chars "1.9", none⟩, ⟨chars "X", chars "3.1", none⟩,
            ⟨chars "Over", chars "2.0", some (chars "2.5")⟩])
      = standardiseList ⟨chars "Chelsea", chars "Arsenal", chars "CHE", chars "ARS"⟩
          [⟨chars "1/Yes", chars "1.9", none⟩, ⟨chars "X", chars "3.1", none⟩,
            ⟨chars "Over", chars "2.0", some (chars "2.5")⟩] :=
  claimC7_idempotent _ _ (by decide)

/-- Claim C3: acronym resolution.  For an entry whose token is
    all-uppercase, is not `"X"`, and has no substring relationship with
    either team name, the resolution step rewrites the token to `"1"` when
    it equals the home short code, to `"2"` when it equals the away short
    code (and not the home one), and otherwise leaves the label unresolved —
    only the `'|'`/space normalisation of line 453 is applied — while
    reaching the diagnostic site of line 412 (`acronymAmbiguous`); it is
    never assigned to `"1"` or `"2"`. -/
theorem claimC3_acronym (ctx : FixtureCtx) (st : List OddsEntry) (idx : Nat)
    (hp : pyIn ['|'] ((st.getD idx dEntry).label) = true)
    (hx : tok (st.getD idx dEntry).label ≠ chars "X")
    (hh : (pyIn (tok (st.getD idx dEntry).label) ctx.home
        || pyIn ctx.home (tok (st.getD idx dEntry).label)) = false)
    (ha : (pyIn (tok (st.getD idx dEntry).label) ctx.away
        || pyIn ctx.away (tok (st.getD idx dEntry).label)) = false)
    (hu : upperEq (tok (st.getD idx dEntry).label) = true) :
    (tok (st.getD idx dEntry).label = ctx.homeShort →
      stepC ctx st idx = st.set idx {st.getD idx dEntry with
        label := normLbl (pyReplace (tok (st.getD idx dEntry).label) (chars "1")
          (st.getD idx dEntry).label)})
    ∧ (tok (st.getD idx dEntry).label ≠ ctx.homeShort →
        tok (st.getD idx dEntry).label = ctx.awayShort →
      stepC ctx st idx = st.set idx {st.getD idx dEntry with
        label := normLbl (pyReplace (tok (st.getD idx dEntry).label) (chars "2")
          (st.getD idx dEntry).label)})
    ∧ (tok (st.getD idx dEntry).label ≠ ctx.homeShort →
        tok (st.getD idx dEntry).label ≠ ctx.awayShort →
      stepC ctx st idx = st.set idx {st.getD idx dEntry with
        label := normLbl (st.getD idx dEntry).label}
      ∧ acronymAmbiguous ctx (st.getD idx dEntry) = true) := by
  refine ⟨fun hhs => stepC_branch_acr_home ctx st idx hp hx hh ha hu hhs,
    fun hhs has => stepC_branch_acr_away ctx st idx hp hx hh ha hu hhs has,
    fun hhs has => ⟨stepC_branch_acr_none ctx st idx hp hx hh ha hu hhs has, ?_⟩⟩
  unfold acronymAmbiguous
  have h1 : (tok (st.getD idx dEntry).label != chars "X") = true := bne_iff_ne.mpr hx
  have h2 : (tok (st.getD idx dEntry).label != ctx.homeShort) = true := bne_iff_ne.mpr hhs
  have h3 : (tok (st.getD idx dEntry).label != ctx.awayShort) = true := bne_iff_ne.mpr has
  rw [hp, hh, ha, hu, h1, h2, h3]
  rfl

/-- Claim C3, witness: with home short code `"QPR"`, the token `"QPR"`
    resolves to `"1"`; with neither short code matching, the token `"FCB"`
    stays unresolved and the diagnostic guard holds. -/
theorem claimC3_witness :
    (stepC ⟨chars "Queens Park Rangers", chars "Paris Saint-Germain", chars "QPR", chars "PSG"⟩
        [⟨chars "QPR | Yes", chars "1.9", none⟩] 0
      = [⟨chars "QPR | Yes", chars "1.9", none⟩].set 0
          {([⟨chars "QPR | Yes", chars "1.9", none⟩].getD 0 dEntry) with
            label := normLbl (pyReplace (tok (([⟨chars "QPR | Yes", chars "1.9", none⟩].getD
                0 dEntry) : OddsEntry).label) (chars "1")
              (([⟨chars "QPR | Yes", chars "1.9", none⟩].getD 0 dEntry) : OddsEntry).label)})
    ∧ (stepC ⟨chars "Queens Park Rangers", chars "Paris Saint-Germain", chars "QPR", chars "PSG"⟩
        [⟨chars "FCB | Yes", chars "1.9", none⟩] 0
      = [⟨chars "FCB | Yes", chars "1.9", none⟩].set 0
          {([⟨chars "FCB | Yes", chars "1.9", none⟩].getD 0 dEntry) with
            label := normLbl (([⟨chars "FCB | Yes", chars "1.9", none⟩].getD 0 dEntry)
              : OddsEntry).label}
      ∧ acronymAmbiguous ⟨chars "Queens Park Rangers", chars "Paris Saint-Germain",
          chars "QPR", chars "PSG"⟩ ([⟨chars "FCB | Yes", chars "1.9", none⟩].getD 0 dEntry)
        = true) := by
  constructor
  · exact (claimC3_acronym _ [⟨chars "QPR | Yes", chars "1.9", none⟩] 0
      (by decide) (by decide) (by decide) (by decide) (by decide)).1 (by decide)
  · exact (claimC3_acronym _ [⟨chars "FCB | Yes", chars "1.9", none⟩] 0
      (by decide) (by decide) (by decide) (by decide) (by decide)).2.2 (by decide) (by decide)

/-- Claim C6: edit-distance fallback for single-word tokens.  When the
    token is not `"X"`, has no substring relationship with either team name,
    is not all-uppercase and has at most one word, the step rewrites the
    token to `"2"` if the Levenshtein distance to the home name is greater
    than or equal to the distance to the away name, and to `"1"` otherwise;
    in particular an equidistant token resolves to away. -/
theorem claimC6_lev (ctx : FixtureCtx) (st : List OddsEntry) (idx : Nat)
    (hp : pyIn ['|'] ((st.getD idx dEntry).label) = true)
    (hx : tok (st.getD idx dEntry).label ≠ chars "X")
    (hh : (pyIn (tok (st.getD idx dEntry).label) ctx.home
        || pyIn ctx.home (tok (st.getD idx dEntry).label)) = false)
    (ha : (pyIn (tok (st.getD idx dEntry).label) ctx.away
        || pyIn ctx.away (tok (st.getD idx dEntry).label)) = false)
    (hu : upperEq (tok (st.getD idx dEntry).label) = false)
    (hw : (pySplitWs (tok (st.getD idx dEntry).label)).length ≤ 1) :
    stepC ctx st idx
      = st.set idx {st.getD idx dEntry with
          label := normLbl (pyReplace (tok (st.getD idx dEntry).label)
            (if levenshteinPy (tok (st.getD idx dEntry).label) ctx.home
                ≥ levenshteinPy (tok (st.getD idx dEntry).label) ctx.away
              then chars "2" else chars "1")
            (st.getD idx dEntry).label)}
    ∧ (levenshteinPy (tok (st.getD idx dEntry).label) ctx.home
          = levenshteinPy (tok (st.getD idx dEntry).label) ctx.away →
        stepC ctx st idx
          = st.set idx {st.getD idx dEntry with
              label := normLbl (pyReplace (tok (st.getD idx dEntry).label) (chars "2")
                (st.getD idx dEntry).label)}) := by
  have h1 := stepC_branch_single_lev ctx st idx hp hx hh ha hu (Nat.not_lt.mpr hw)
  refine ⟨h1, fun heq => ?_⟩
  rw [h1, if_pos heq.ge]

/-- Claim C6, witness: the token `"abz"` is at distance 1 from both home
    `"abc"` and away `"abd"`, and resolves to away (`"2"`). -/
theorem claimC6_witness :
    stepC ⟨chars "abc", chars "abd", chars "AB", chars "AD"⟩
        [⟨chars "abz | Win", chars "1.9", none⟩] 0
      = [⟨chars "abz | Win", chars "1.9", none⟩].set 0
          {([⟨chars "abz | Win", chars "1.9", none⟩].getD 0 dEntry) with
            label := normLbl (pyReplace (tok (([⟨chars "abz | Win", chars "1.9", none⟩].getD
                0 dEntry) : OddsEntry).label) (chars "2")
              (([⟨chars "abz | Win", chars "1.9", none⟩].getD 0 dEntry) : OddsEntry).label)} :=
  (claimC6_lev ⟨chars "abc", chars "abd", chars "AB", chars "AD"⟩
    [⟨chars "abz | Win", chars "1.9", none⟩] 0
    (by decide) (by decide) (by decide) (by decide) (by decide) (by decide)).2 (by decide)

/- Lemmas about the odds row dictionary. -/

theorem upsert_key_mem (key : List Char) (v : PyVal) :
    ∀ (row : OddsRow), key ∈ rowKeys (upsert key v row) := by
  intro row
  induction row with
  | nil => exact List.mem_cons_self key []
  | cons kv rest ih =>
    unfold upsert
    by_cases heq : kv.1 = key
    · rw [if_pos heq]
      exact List.mem_cons_self key _
    · rw [if_neg heq]
      exact List.mem_cons_of_mem kv.1 ih

theorem rowKeys_upsert_mono {k : List Char} (key : List Char) (v : PyVal) :
    ∀ (row : OddsRow), k ∈ rowKeys row → k ∈ rowKeys (upsert key v row) := by
  intro row
  induction row with
  | nil => intro h; simp [rowKeys] at h
  | cons kv rest ih =>
    intro h
    unfold upsert
    split
    · next heq =>
      simp only [rowKeys, List.map_cons, List.mem_cons] at h ⊢
      rcases h with h | h
      · exact Or.inl (by rw [h, heq])
      · exact Or.inr h
    · simp only [rowKeys, List.map_cons, List.mem_cons] at h ⊢
      rcases h with h | h
      · exact Or.inl h
      · exact Or.inr (ih h)

/-- The generic per-entry write of `odds_includes` for a market id with no
    per-entry label filter (anything other than 12 and 976316): the entry is
    written exactly when its total passes the half-line test. -/
theorem processOddsEntry_total_eq (mid : Int) (bk : List Char)
    (acc : OddsRow × List (List Char)) (e : OddsEntry)
    (h12 : mid ≠ 12) (h316 : mid ≠ 976316) :
    processOddsEntry mid bk acc e
      = if keepTotal e.total
        then (upsert (entryKey bk e) (PyVal.str e.value) acc.1, acc.2)
        else acc := by
  unfold processOddsEntry
  rw [if_neg (fun h => h12 h.1), if_neg (fun h => h316 h.1)]
  cases ht : e.total with
  | none =>
    have hel : entryKey bk e = bk ++ chars "_" ++ e.label := by
      unfold entryKey
      rw [ht]
    show (upsert (bk ++ chars "_" ++ e.label) (PyVal.str e.value) acc.1, acc.2)
      = if keepTotal none then (upsert (entryKey bk e) (PyVal.str e.value) acc.1, acc.2)
        else acc
    rw [if_pos (show keepTotal none = true from rfl), hel]
  | some t =>
    have hel : entryKey bk e = bk ++ chars "_" ++ e.label ++ t := by
      unfold entryKey
      rw [ht]
    show (if pyIn ['.'] t = true ∧ (pySplitCh '.' t).getD 1 [] = chars "5"
        then (upsert (bk ++ chars "_" ++ e.label ++ t) (PyVal.str e.value) acc.1, acc.2)
        else acc)
      = if keepTotal (some t)
        then (upsert (entryKey bk e) (PyVal.str e.value) acc.1, acc.2)
        else acc
    by_cases hc : pyIn ['.'] t = true ∧ (pySplitCh '.' t).getD 1 [] = chars "5"
    · have hkt : keepTotal (some t) = true := by
        have h2 : ((pySplitCh '.' t).getD 1 [] == chars "5") = true := beq_iff_eq.mpr hc.2
        show (pyIn ['.'] t && ((pySplitCh '.' t).getD 1 [] == chars "5")) = true
        rw [hc.1, h2]
        rfl
      rw [if_pos hc, if_pos hkt, hel]
    · have hkt : ¬ (keepTotal (some t) = true) := by
        intro hcc
        have hcc' : (pyIn ['.'] t && ((pySplitCh '.' t).getD 1 [] == chars "5")) = true := hcc
        rw [Bool.and_eq_true] at hcc'
        exact hc ⟨hcc'.1, beq_iff_eq.mp hcc'.2⟩
      rw [if_neg hc, if_neg hkt]

theorem foldl_processOddsEntry_keys_mono (mid : Int) (bk : List Char) :
    ∀ (l : List OddsEntry) (acc : OddsRow × List (List Char)) (k : List Char),
      k ∈ rowKeys acc.1 → k ∈ rowKeys ((l.foldl (processOddsEntry mid bk) acc)).1 := by
  have step : ∀ (acc : OddsRow × List (List Char)) (e : OddsEntry) (k : List Char),
      k ∈ rowKeys acc.1 → k ∈ rowKeys (processOddsEntry mid bk acc e).1 := by
    intro acc e k hk
    unfold processOddsEntry
    split
    · exact hk
    · split
      · exact hk
      · split
        · split
          · exact rowKeys_upsert_mono _ _ _ hk
          · exact hk
        · exact rowKeys_upsert_mono _ _ _ hk
  intro l
  induction l with
  | nil => intro acc k hk; exact hk
  | cons e rest ih =>
    intro acc k hk
    rw [List.foldl_cons]
    exact ih _ _ (step acc e k hk)

theorem foldl_processOddsEntry_writes (mid : Int) (bk : List Char)
    (h12 : mid ≠ 12) (h316 : mid ≠ 976316) :
    ∀ (l : List OddsEntry) (acc : OddsRow × List (List Char)) (e : OddsEntry),
      e ∈ l → keepTotal e.total = true →
      entryKey bk e ∈ rowKeys ((l.foldl (processOddsEntry mid bk) acc)).1 := by
  intro l
  induction l with
  | nil => intro acc e he _; simp at he
  | cons x rest ih =>
    intro acc e he hk
    rw [List.foldl_cons]
    rcases List.mem_cons.mp he with he' | he'
    · subst he'
      apply foldl_processOddsEntry_keys_mono
      rw [processOddsEntry_total_eq mid bk acc e h12 h316, if_pos hk]
      exact upsert_key_mem _ _ _
    · exact ih _ e he' hk

/-- Claim C5, amended.  In `odds_includes`, for a market without a
    per-entry label filter (id neither 12 nor 976316), an entry with a
    non-null total is written to the row exactly when the total contains a
    `'.'` and the segment between the first `'.'` and the next `'.'` (or the
    end of the string) — `total.split(".")[1]` — is exactly `"5"`; an entry
    with a null total is written unconditionally.  The frozen claim reads
    "the text after the first `'.'` is exactly `'5'`", which differs on
    totals with two dots; see `claimC5_counterexample`. -/
theorem claimC5_amended (mid : Int) (bk : List Char) (row : OddsRow)
    (ds : List (List Char)) (e : OddsEntry) (h12 : mid ≠ 12) (h316 : mid ≠ 976316) :
    (keepTotal e.total = true →
      processOddsEntry mid bk (row, ds) e
        = (upsert (entryKey bk e) (PyVal.str e.value) row, ds)
      ∧ entryKey bk e ∈ rowKeys (processOddsEntry mid bk (row, ds) e).1)
    ∧ (keepTotal e.total = false → processOddsEntry mid bk (row, ds) e = (row, ds))
    ∧ keepTotal (none : Option (List Char)) = true
    ∧ (∀ t, keepTotal (some t)
        = (pyIn ['.'] t && ((pySplitCh '.' t).getD 1 [] == chars "5"))) := by
  refine ⟨fun hk => ⟨?_, ?_⟩, fun hk => ?_, rfl, fun t => rfl⟩
  · rw [processOddsEntry_total_eq mid bk (row, ds) e h12 h316, if_pos hk]
  · rw [processOddsEntry_total_eq mid bk (row, ds) e h12 h316, if_pos hk]
    exact upsert_key_mem _ _ _
  · rw [processOddsEntry_total_eq mid bk (row, ds) e h12 h316, if_neg (by rw [hk]; simp)]

/-- Claim C5, counterexample to the claim as frozen: the total `"2.5.0"`
    has `"5.0"` after its first `'.'` (not `"5"`), yet the code keeps the
    entry, because `total.split(".")[1]` is `"5"`. -/
theorem claimC5_counterexample :
    processOddsEntry 1 (chars "B") ([(chars "id", PyVal.int 7)], [])
        ⟨chars "Over", chars "1.9", some (chars "2.5.0")⟩
      = ([(chars "id", PyVal.int 7), (chars "B_Over2.5.0", PyVal.str (chars "1.9"))], [])
    ∧ specAfterFirstDot (chars "2.5.0") ≠ chars "5" := by
  exact ⟨by decide, by decide⟩

/-- Claim C5, witness for the amended theorem at concrete inputs: an entry
    with total `"2.5"` is written, one with total `"2.0"` is dropped, one
    with no total is written. -/
theorem claimC5_witness :
    (processOddsEntry 1 (chars "B") ([(chars "id", PyVal.int 7)], [])
        ⟨chars "Over", chars "1.9", some (chars "2.5")⟩
      = (upsert (entryKey (chars "B") ⟨chars "Over", chars "1.9", some (chars "2.5")⟩)
          (PyVal.str (chars "1.9")) [(chars "id", PyVal.int 7)], []))
    ∧ processOddsEntry 1 (chars "B") ([(chars "id", PyVal.int 7)], [])
        ⟨chars "Over", chars "1.9", some (chars "2.0")⟩
      = ([(chars "id", PyVal.int 7)], [])
    ∧ processOddsEntry 1 (chars "B") ([(chars "id", PyVal.int 7)], [])
        ⟨chars "Over", chars "1.9", none⟩
      = (upsert (entryKey (chars "B") ⟨chars "Over", chars "1.9", none⟩)
          (PyVal.str (chars "1.9")) [(chars "id", PyVal.int 7)], []) := by
  refine ⟨?_, ?_, ?_⟩
  · exact ((claimC5_amended 1 (chars "B") [(chars "id", PyVal.int 7)] []
      ⟨chars "Over", chars "1.9", some (chars "2.5")⟩ (by decide) (by decide)).1
      (by decide)).1
  · exact (claimC5_amended 1 (chars "B") [(chars "id", PyVal.int 7)] []
      ⟨chars "Over", chars "1.9", some (chars "2.0")⟩ (by decide) (by decide)).2.1
      (by decide)
  · exact ((claimC5_amended 1 (chars "B") [(chars "id", PyVal.int 7)] []
      ⟨chars "Over", chars "1.9", none⟩ (by decide) (by decide)).1 (by decide)).1

/-- Claim C8: a top-level response that is neither a mapping nor a list
    makes `standardise_columns` fail fast with a `TypeError` (modelled as
    `Except.error`), never returning a coerced or unchanged value. -/
theorem claimC8_type_error (ctx : FixtureCtx) (t : List Char) :
    standardise_columns ctx (ApiResponse.other t)
      = Except.error (chars "Did not expect response of type: " ++ t) := rfl

/-- Claim C9: a per-fixture/per-market row that holds only the three
    identifying fields — length 3, which is exactly the shape of the row
    before any odds column is added — is never appended to any bucket; a row
    with at least one additional column (length 3 or more plus one) is
    appended to the bucket of its market id. -/
theorem claimC9_rows (buckets : List (Int × List OddsRow)) (mid : Int) (row : OddsRow) :
    (row.length = 3 → updateBuckets buckets mid row = buckets)
    ∧ (row.length ≠ 3 → ∀ (ks : Int) (rs : List OddsRow), (ks, rs) ∈ buckets →
        (ks, if ks = mid then rs ++ [row] else rs) ∈ updateBuckets buckets mid row)
    ∧ (∀ (ctx : FixtureCtx) (fid : Int) (mk : Market), mk.bookmakers = [] →
        (marketRow ctx fid mk).1
          = [(chars "id", PyVal.int fid), (chars "market_id", PyVal.int mk.mid),
              (chars "market", PyVal.str mk.mname)]
        ∧ (marketRow ctx fid mk).1.length = 3) := by
  refine ⟨?_, ?_, ?_⟩
  · intro h3
    unfold updateBuckets
    apply map_id_of_mem
    intro b _
    rw [if_neg (fun hcc => hcc.2 h3)]
  · intro h3 ks rs hmem
    unfold updateBuckets
    refine List.mem_map.mpr ⟨(ks, rs), hmem, ?_⟩
    by_cases hk : ks = mid
    · rw [if_pos (show (ks, rs).1 = mid ∧ row.length ≠ 3 from ⟨hk, h3⟩), if_pos hk]
    · rw [if_neg (fun hcc => hk hcc.1), if_neg hk]
  · intro ctx fid mk hbk
    constructor
    · unfold marketRow
      rw [hbk]
      rfl
    · unfold marketRow
      rw [hbk]
      rfl

/-- Claim C9, witness: a length-3 row is not appended; a row with one odds
    column is appended to its market's bucket. -/
theorem claimC9_witness :
    updateBuckets [((1 : Int), ([] : List OddsRow))] 1
        [(chars "id", PyVal.int 7), (chars "market_id", PyVal.int 1),
          (chars "market", PyVal.str (chars "3Way Result"))]
      = [((1 : Int), ([] : List OddsRow))]
    ∧ ((1 : Int),
        if (1 : Int) = 1
        then ([] : List OddsRow) ++ [[(chars "id", PyVal.int 7),
            (chars "market_id", PyVal.int 1), (chars "market", PyVal.str (chars "3Way Result")),
            (chars "B_1", PyVal.str (chars "1.9"))]]
        else [])
      ∈ updateBuckets [((1 : Int), ([] : List OddsRow))] 1
          [(chars "id", PyVal.int 7), (chars "market_id", PyVal.int 1),
            (chars "market", PyVal.str (chars "3Way Result")),
            (chars "B_1", PyVal.str (chars "1.9"))] := by
  constructor
  · exact (claimC9_rows [((1 : Int), ([] : List OddsRow))] 1
      [(chars "id", PyVal.int 7), (chars "market_id", PyVal.int 1),
        (chars "market", PyVal.str (chars "3Way Result"))]).1 (by decide)
  · exact (claimC9_rows [((1 : Int), ([] : List OddsRow))] 1
      [(chars "id", PyVal.int 7), (chars "market_id", PyVal.int 1),
        (chars "market", PyVal.str (chars "3Way Result")),
        (chars "B_1", PyVal.str (chars "1.9"))]).2.1 (by decide) 1 [] (by decide)

/-- Claim C10: on a single dict response, `standardise_columns` performs no
    team-name resolution at all: the result is exactly the Home/Draw/Away
    substitution followed by the `'|'`/space normalisation, it does not
    depend on the fixture context, and a label such as `"Chelsea | Yes"`
    comes back as `"Chelsea/Yes"` with the raw team token intact.  The
    Home/Draw/Away substitution applies only the first matching word:
    `"Home Draw"` becomes `"1 Draw"` before normalisation. -/
theorem claimC10_dict (ctx ctx' : FixtureCtx) (e : OddsEntry) :
    standardise_columns ctx (ApiResponse.dict e)
      = Except.ok (ApiResponse.dict {e with label := normLbl (hdaFix e.label)})
    ∧ standardise_columns ctx (ApiResponse.dict e)
      = standardise_columns ctx' (ApiResponse.dict e)
    ∧ (standardiseDict ⟨chars "Chelsea | Yes", chars "1.9", none⟩).label = chars "Chelsea/Yes"
    ∧ hdaFix (chars "Home Draw") = chars "1 Draw" := by
  exact ⟨rfl, rfl, by decide, by decide⟩

/-- Claim C4, amended.  In `odds_includes`, for market 976105 (both teams
    to score): if any standardised label of a bookmaker is neither `"Yes"`
    nor `"No"`, the whole bookmaker is skipped — the row is unchanged and
    the diagnostic is emitted; if every label is `"Yes"` or `"No"`, the
    bookmaker's entries are processed and every entry passing the total
    filter (null total, or half-line total) contributes its column to the
    row.  The frozen claim, that in the valid case the group's entries are
    kept unconditionally, fails for an entry with a whole-number total; see
    `claimC4_counterexample`. -/
theorem claimC4_amended (ctx : FixtureCtx) (acc : OddsRow × List (List Char))
    (bk : Bookmaker) :
    ((standardiseList ctx bk.odds).any
        (fun e => !(e.label == chars "Yes") && !(e.label == chars "No")) = true →
      processBookmaker ctx 976105 acc bk
        = (acc.1, acc.2 ++ [chars "Incorrect label for BTTS"]))
    ∧ ((standardiseList ctx bk.odds).any
        (fun e => !(e.label == chars "Yes") && !(e.label == chars "No")) = false →
      ∀ e ∈ standardiseList ctx bk.odds, keepTotal e.total = true →
        entryKey bk.name e ∈ rowKeys (processBookmaker ctx 976105 acc bk).1) := by
  constructor
  · intro hany
    unfold processBookmaker
    simp only []
    rw [if_pos (⟨trivial, hany⟩ : True ∧ _)]
  · intro hany e he hk
    unfold processBookmaker
    simp only []
    rw [if_neg (fun hcc => by rw [hany] at hcc; exact absurd hcc.2 (by simp))]
    exact foldl_processOddsEntry_writes 976105 bk.name (by decide) (by decide) _ acc e he hk

/-- Claim C4, counterexample to the claim as frozen: a bookmaker whose only
    standardised label is `"Yes"` (so every label is `"Yes"` or `"No"`)
    contributes nothing to the row, because the entry's total `"2.0"` fails
    the half-line filter — the entries are not all "kept". -/
theorem claimC4_counterexample :
    processBookmaker ⟨chars "Chelsea", chars "Arsenal", chars "CHE", chars "ARS"⟩ 976105
        ([(chars "id", PyVal.int 7)], [])
        ⟨chars "B", [⟨chars "Yes", chars "1.9", some (chars "2.0")⟩]⟩
      = ([(chars "id", PyVal.int 7)], [])
    ∧ (standardiseList ⟨chars "Chelsea", chars "Arsenal", chars "CHE", chars "ARS"⟩
        [⟨chars "Yes", chars "1.9", some (chars "2.0")⟩]).map OddsEntry.label
      = [chars "Yes"] := by
  exact ⟨by decide, by decide⟩

/-- Claim C4, witness for the amended theorem: a bookmaker with labels
    `Yes`/`Maybe` is dropped whole with the diagnostic; a bookmaker with a
    single `Yes` entry without a total contributes its column. -/
theorem claimC4_witness :
    processBookmaker ⟨chars "Chelsea", chars "Arsenal", chars "CHE", chars "ARS"⟩ 976105
        ([(chars "id", PyVal.int 7)], [])
        ⟨chars "B", [⟨chars "Yes", chars "1.9", none⟩, ⟨chars "Maybe", chars "3.0", none⟩]⟩
      = ([(chars "id", PyVal.int 7)], [chars "Incorrect label for BTTS"])
    ∧ entryKey (chars "B") ⟨chars "Yes", chars "1.9", none⟩
        ∈ rowKeys (processBookmaker ⟨chars "Chelsea", chars "Arsenal", chars "CHE",
            chars "ARS"⟩ 976105 ([(chars "id", PyVal.int 7)], [])
            ⟨chars "B", [⟨chars "Yes", chars "1.9", none⟩]⟩).1 := by
  constructor
  · exact (claimC4_amended ⟨chars "Chelsea", chars "Arsenal", chars "CHE", chars "ARS"⟩
      ([(chars "id", PyVal.int 7)], [])
      ⟨chars "B", [⟨chars "Yes", chars "1.9", none⟩, ⟨chars "Maybe", chars "3.0", none⟩]⟩).1
      (by decide)
  · exact (claimC4_amended ⟨chars "Chelsea", chars "Arsenal", chars "CHE", chars "ARS"⟩
      ([(chars "id", PyVal.int 7)], [])
      ⟨chars "B", [⟨chars "Yes", chars "1.9", none⟩]⟩).2 (by decide)
      ⟨chars "Yes", chars "1.9", none⟩ (by decide) (by decide)

/- Claim C2: core lemmas.  `c2_core_front` treats the state in which the
   home-token entry sits at position 0 and the other entry somewhere behind
   it: the inner loop of the home branch rewrites the other entry to away.
   `c2_core_away` treats the state in which the other entry itself sits at
   position 0 and its token is contained in the away name: its own branch
   rewrites it to away. -/

theorem c2_core_front (ctx : FixtureCtx) (T : List OddsEntry) (e1 e2 : OddsEntry)
    (o1 o2 t2 : List Char)
    (he1 : e1.label = ctx.home ++ chars " | " ++ o1)
    (he2 : e2.label = t2 ++ chars " | " ++ o2)
    (hch : cleanName ctx.home) (hct : cleanName t2)
    (hhx : ctx.home ≠ chars "X")
    (hx2 : t2 ≠ chars "X") (h12 : t2 ≠ chars "1")
    (hnh : pyIn t2 ctx.home = false)
    (he2T : e2 ∈ T) :
    ∃ e ∈ phaseC ctx (e1 :: T),
      e.value = e2.value ∧ e.total = e2.total
      ∧ e.label = normLbl (pyReplace t2 (chars "2") e2.label)
      ∧ e.label = '2' :: '/' :: normLbl (pyReplace t2 (chars "2") o2) := by
  have htok1 : tok e1.label = ctx.home := by rw [he1]; exact tok_team_label hch o1
  have htok2 : tok e2.label = t2 := by rw [he2]; exact tok_team_label hct o2
  have hp1 : pyIn ['|'] e1.label = true :=
    (pyIn_singleton _ _).mpr (by rw [he1]; exact pipe_mem_team_label _ _)
  have hp2 : pyIn ['|'] e2.label = true :=
    (pyIn_singleton _ _).mpr (by rw [he2]; exact pipe_mem_team_label _ _)
  have hget0 : (e1 :: T).getD 0 dEntry = e1 := rfl
  have hp0 : pyIn ['|'] (((e1 :: T).getD 0 dEntry).label) = true := hp1
  have hx0 : tok (((e1 :: T).getD 0 dEntry).label) ≠ chars "X" := by
    rw [hget0, htok1]; exact hhx
  have hh0 : (pyIn (tok (((e1 :: T).getD 0 dEntry).label)) ctx.home
      || pyIn ctx.home (tok (((e1 :: T).getD 0 dEntry).label))) = true := by
    rw [hget0, htok1, pyIn_refl]
    simp
  have hstep0 := stepC_branch_home ctx (e1 :: T) 0 hp0 hx0 hh0
  rw [hget0, htok1] at hstep0
  obtain ⟨p, hpT, hgetp⟩ := List.mem_iff_getElem.mp he2T
  have hq : (e1 :: T).getD (p + 1) dEntry = e2 := by
    show T.getD p dEntry = e2
    rw [List.getD_eq_getElem T dEntry hpT, hgetp]
  have hqlen : p + 1 < (e1 :: T).length := by
    simp only [List.length_cons]
    omega
  have hiv : ((e1 :: T).set 0 {e1 with label := pyReplace ctx.home (chars "1") e1.label}).getD
      0 dEntry = {e1 with label := pyReplace ctx.home (chars "1") e1.label} :=
    getD_set_self _ _ _ _ (by simp)
  have hinner : innerResolveF ctx.home (chars "2") (chars "1")
      {e1 with label := pyReplace ctx.home (chars "1") e1.label} e2
      = {e2 with label := normLbl (pyReplace t2 (chars "2") e2.label)} := by
    have hmlab : ({e1 with label := pyReplace ctx.home (chars "1") e1.label} :
        OddsEntry).label = chars "1" ++ chars " | " ++ pyReplace ctx.home (chars "1") o1 := by
      show pyReplace ctx.home (chars "1") e1.label = _
      rw [he1]
      exact pyReplace_team_label (chars "1") hch o1
    have htokm : tok ({e1 with label := pyReplace ctx.home (chars "1") e1.label} :
        OddsEntry).label = chars "1" := by
      rw [hmlab]
      exact tok_team_label (by decide) _
    have hne : e2 ≠ {e1 with label := pyReplace ctx.home (chars "1") e1.label} := by
      intro heq
      have htt : tok e2.label
          = tok ({e1 with label := pyReplace ctx.home (chars "1") e1.label} :
              OddsEntry).label := by rw [heq]
      rw [htok2, htokm] at htt
      exact h12 htt
    have hteamne : ctx.home ≠ tok e2.label := by
      rw [htok2]
      intro heq
      rw [heq, pyIn_refl] at hnh
      simp at hnh
    unfold innerResolveF
    rw [if_pos hp2, if_pos ⟨hne, by rw [htok2]; exact hx2, hteamne⟩, htok2]
  have hstate : (stepC ctx (e1 :: T) 0).getD (p + 1) dEntry
      = {e2 with label := normLbl (pyReplace t2 (chars "2") e2.label)} := by
    rw [hstep0, shapeB_getD_ne _ (innerResolveF_self _ _ _) (e1 :: T) 0 (p + 1) _
      (Nat.succ_ne_zero p), if_pos hqlen, hiv, hq, hinner]
  have hclean2 : pyIn ['|'] (({e2 with
      label := normLbl (pyReplace t2 (chars "2") e2.label)} : OddsEntry).label) = false :=
    pipe_not_mem_norm_contains _
  have hphase : phaseC ctx (e1 :: T)
      = (List.map Nat.succ (List.range T.length)).foldl (stepC ctx)
          (stepC ctx (e1 :: T) 0) := by
    show (List.range (e1 :: T).length).foldl (stepC ctx) (e1 :: T) = _
    rw [show (e1 :: T).length = T.length + 1 from rfl, List.range_succ_eq_map,
      List.foldl_cons]
  have hfinal : (phaseC ctx (e1 :: T)).getD (p + 1) dEntry
      = {e2 with label := normLbl (pyReplace t2 (chars "2") e2.label)} := by
    rw [hphase, foldl_stepC_preserves_clean ctx _ _ (p + 1) (by rw [hstate]; exact hclean2),
      hstate]
  have hlenfinal : p + 1 < (phaseC ctx (e1 :: T)).length := by
    have hlp : (phaseC ctx (e1 :: T)).length = (e1 :: T).length := by
      rw [hphase, foldl_stepC_length, stepC_length]
    rw [hlp]
    exact hqlen
  refine ⟨{e2 with label := normLbl (pyReplace t2 (chars "2") e2.label)}, ?_, rfl, rfl, rfl, ?_⟩
  · rw [← hfinal]
    exact getD_mem _ _ _ hlenfinal
  · show normLbl (pyReplace t2 (chars "2") e2.label) = _
    rw [he2, pyReplace_team_label (chars "2") hct o2]
    exact norm_token_label '2' (by decide) (by decide) _

theorem c2_core_away (ctx : FixtureCtx) (T : List OddsEntry) (e2 : OddsEntry)
    (o2 t2 : List Char)
    (he2 : e2.label = t2 ++ chars " | " ++ o2)
    (hct : cleanName t2)
    (hx2 : t2 ≠ chars "X")
    (hnh : pyIn t2 ctx.home = false) (hhn : pyIn ctx.home t2 = false)
    (hta : pyIn t2 ctx.away = true) :
    ∃ e ∈ phaseC ctx (e2 :: T),
      e.value = e2.value ∧ e.total = e2.total
      ∧ e.label = normLbl (pyReplace t2 (chars "2") e2.label)
      ∧ e.label = '2' :: '/' :: normLbl (pyReplace t2 (chars "2") o2) := by
  have htok2 : tok e2.label = t2 := by rw [he2]; exact tok_team_label hct o2
  have hp2 : pyIn ['|'] e2.label = true :=
    (pyIn_singleton _ _).mpr (by rw [he2]; exact pipe_mem_team_label _ _)
  have hget0 : (e2 :: T).getD 0 dEntry = e2 := rfl
  have hp0 : pyIn ['|'] (((e2 :: T).getD 0 dEntry).label) = true := hp2
  have hx0 : tok (((e2 :: T).getD 0 dEntry).label) ≠ chars "X" := by
    rw [hget0, htok2]; exact hx2
  have hh0 : (pyIn (tok (((e2 :: T).getD 0 dEntry).label)) ctx.home
      || pyIn ctx.home (tok (((e2 :: T).getD 0 dEntry).label))) = false := by
    rw [hget0, htok2, hnh, hhn]
    rfl
  have ha0 : (pyIn (tok (((e2 :: T).getD 0 dEntry).label)) ctx.away
      || pyIn ctx.away (tok (((e2 :: T).getD 0 dEntry).label))) = true := by
    rw [hget0, htok2, hta]
    simp
  have hstep0 := stepC_branch_away ctx (e2 :: T) 0 hp0 hx0 hh0 ha0
  rw [hget0, htok2] at hstep0
  have hstate : (stepC ctx (e2 :: T) 0).getD 0 dEntry
      = {e2 with label := normLbl (pyReplace t2 (chars "2") e2.label)} := by
    rw [hstep0, shapeB_getD_idx _ (innerResolveF_self _ _ _) (e2 :: T) 0 _ (by simp)]
  have hclean2 : pyIn ['|'] (({e2 with
      label := normLbl (pyReplace t2 (chars "2") e2.label)} : OddsEntry).label) = false :=
    pipe_not_mem_norm_contains _
  have hphase : phaseC ctx (e2 :: T)
      = (List.map Nat.succ (List.range T.length)).foldl (stepC ctx)
          (stepC ctx (e2 :: T) 0) := by
    show (List.range (e2 :: T).length).foldl (stepC ctx) (e2 :: T) = _
    rw [show (e2 :: T).length = T.length + 1 from rfl, List.range_succ_eq_map,
      List.foldl_cons]
  have hfinal : (phaseC ctx (e2 :: T)).getD 0 dEntry
      = {e2 with label := normLbl (pyReplace t2 (chars "2") e2.label)} := by
    rw [hphase, foldl_stepC_preserves_clean ctx _ _ 0 (by rw [hstate]; exact hclean2),
      hstate]
  have hlenfinal : 0 < (phaseC ctx (e2 :: T)).length := by
    have hlp : (phaseC ctx (e2 :: T)).length = (e2 :: T).length := by
      rw [hphase, foldl_stepC_length, stepC_length]
    rw [hlp]
    simp
  refine ⟨{e2 with label := normLbl (pyReplace t2 (chars "2") e2.label)}, ?_, rfl, rfl, rfl, ?_⟩
  · rw [← hfinal]
    exact getD_mem _ _ _ hlenfinal
  · show normLbl (pyReplace t2 (chars "2") e2.label) = _
    rw [he2, pyReplace_team_label (chars "2") hct o2]
    exact norm_token_label '2' (by decide) (by decide) _

theorem filter_sub {α : Type} (p q : α → Bool) (himp : ∀ a, p a = true → q a = true) :
    ∀ (l : List α), l.filter p = (l.filter q).filter p := by
  intro l
  induction l with
  | nil => rfl
  | cons x xs ih =>
    rw [List.filter_cons]
    by_cases hp : p x = true
    · rw [if_pos hp, List.filter_cons, if_pos (himp x hp), List.filter_cons, if_pos hp, ih]
    · rw [if_neg hp, List.filter_cons]
      by_cases hq : q x = true
      · rw [if_pos hq, List.filter_cons, if_neg hp, ih]
      · rw [if_neg hq, ih]

/-- Claim C2, amended.  Take a market/bookmaker odds list whose
    pipe-containing entries are exactly two: one labelled
    `<home> | <outcome>` with its token exactly the home team name, the
    other `<t2> | <outcome>`, where the home name and the other token are
    well-formed (nonempty, no `'|'`, stripped), the home name is not the
    literal `"X"`, neither label contains the substitution words `"Home"`,
    `"Draw"`, `"Away"`, and the other token is not `"X"`, not `"1"`, and in
    no substring relationship with the home name.  Then
    `standardise_columns` resolves the other entry to away: the returned
    list contains it with its token rewritten to `"2"` (label
    `2/<normalised outcome>`).  The claim as frozen — the other entry
    resolves to away regardless of its own token — is refuted by
    `claimC2_counterexample`, where the other token equals the home name
    and both entries resolve to home. -/
theorem claimC2_amended (ctx : FixtureCtx) (l : List OddsEntry) (e1 e2 : OddsEntry)
    (o1 o2 t2 : List Char)
    (hl : l.filter (fun e => pyIn ['|'] e.label) = [e1, e2]
        ∨ l.filter (fun e => pyIn ['|'] e.label) = [e2, e1])
    (he1 : e1.label = ctx.home ++ chars " | " ++ o1)
    (he2 : e2.label = t2 ++ chars " | " ++ o2)
    (hch : cleanName ctx.home) (hct : cleanName t2)
    (hhx : ctx.home ≠ chars "X")
    (hx2 : t2 ≠ chars "X") (h12 : t2 ≠ chars "1")
    (hnh : pyIn t2 ctx.home = false) (hhn : pyIn ctx.home t2 = false)
    (hd1 : pyIn (chars "Home") e1.label = false ∧ pyIn (chars "Draw") e1.label = false
        ∧ pyIn (chars "Away") e1.label = false)
    (hd2 : pyIn (chars "Home") e2.label = false ∧ pyIn (chars "Draw") e2.label = false
        ∧ pyIn (chars "Away") e2.label = false) :
    ∃ e ∈ standardiseList ctx l,
      e.value = e2.value ∧ e.total = e2.total
      ∧ e.label = normLbl (pyReplace t2 (chars "2") e2.label)
      ∧ e.label = '2' :: '/' :: normLbl (pyReplace t2 (chars "2") o2) := by
  have htok1 : tok e1.label = ctx.home := by rw [he1]; exact tok_team_label hch o1
  have htok2 : tok e2.label = t2 := by rw [he2]; exact tok_team_label hct o2
  have hp1 : pyIn ['|'] e1.label = true :=
    (pyIn_singleton _ _).mpr (by rw [he1]; exact pipe_mem_team_label _ _)
  have hp2 : pyIn ['|'] e2.label = true :=
    (pyIn_singleton _ _).mpr (by rw [he2]; exact pipe_mem_team_label _ _)
  have hde1 : hdaEntry e1 = e1 := hdaEntry_eq_self (hdaFix_eq_self hd1.1 hd1.2.1 hd1.2.2)
  have hde2 : hdaEntry e2 = e2 := hdaEntry_eq_self (hdaFix_eq_self hd2.1 hd2.2.1 hd2.2.2)
  have hhdraw : ctx.home ≠ chars "Draw" := by
    intro heq
    have hmem : pyIn (chars "Draw") e1.label = true := by
      rw [he1, ← heq, List.append_assoc]
      exact pyIn_self_append _ _
    rw [hd1.2.1] at hmem
    simp at hmem
  have ht2draw : t2 ≠ chars "Draw" := by
    intro heq
    have hmem : pyIn (chars "Draw") e2.label = true := by
      rw [he2, ← heq, List.append_assoc]
      exact pyIn_self_append _ _
    rw [hd2.2.1] at hmem
    simp at hmem
  have hb1 : isBanker ctx e1 = true := by
    unfold isBanker
    rw [hp1, htok1, pyIn_refl,
      show (ctx.home != chars "Draw") = true from bne_iff_ne.mpr hhdraw]
    simp
  have hb2 : isBanker ctx e2 = pyIn t2 ctx.away := by
    unfold isBanker
    rw [hp2, htok2, hnh,
      show (t2 != chars "Draw") = true from bne_iff_ne.mpr ht2draw]
    simp
  have hfb : l.filter (fun e => isBanker ctx e)
      = (l.filter (fun e => pyIn ['|'] e.label)).filter (fun e => isBanker ctx e) :=
    filter_sub _ _ (fun a ha => by simp only [isBanker, Bool.and_eq_true] at ha; exact ha.1.1) l
  have hmem2l : e2 ∈ l := by
    rcases hl with hl | hl
    · have hmem : e2 ∈ l.filter (fun e => pyIn ['|'] e.label) := by rw [hl]; simp
      exact (List.mem_filter.mp hmem).1
    · have hmem : e2 ∈ l.filter (fun e => pyIn ['|'] e.label) := by rw [hl]; simp
      exact (List.mem_filter.mp hmem).1
  have hz : standardiseList ctx l = phaseC ctx (phaseB (reorder ctx l)) := rfl
  by_cases hta : pyIn t2 ctx.away = true
  · rcases hl with hl | hl
    · have hbank : l.filter (fun e => isBanker ctx e) = [e1, e2] := by
        rw [hfb, hl, List.filter_cons, if_pos hb1, List.filter_cons,
          if_pos (show isBanker ctx e2 = true by rw [hb2]; exact hta)]
        rfl
      have hre : reorder ctx l = e2 :: e1 :: l.filter (fun e => !isBanker ctx e) := by
        rw [reorder_eq, hbank]
        rfl
      have hpb : phaseB (reorder ctx l)
          = e2 :: e1 :: phaseB (l.filter (fun e => !isBanker ctx e)) := by
        rw [hre]
        show (e2 :: e1 :: _).map hdaEntry = _
        rw [List.map_cons, List.map_cons, hde2, hde1]
        rfl
      rw [hz, hpb]
      exact c2_core_away ctx (e1 :: phaseB (l.filter (fun e => !isBanker ctx e)))
        e2 o2 t2 he2 hct hx2 hnh hhn hta
    · have hbank : l.filter (fun e => isBanker ctx e) = [e2, e1] := by
        rw [hfb, hl, List.filter_cons,
          if_pos (show isBanker ctx e2 = true by rw [hb2]; exact hta),
          List.filter_cons, if_pos hb1]
        rfl
      have hre : reorder ctx l = e1 :: e2 :: l.filter (fun e => !isBanker ctx e) := by
        rw [reorder_eq, hbank]
        rfl
      have hpb : phaseB (reorder ctx l)
          = e1 :: e2 :: phaseB (l.filter (fun e => !isBanker ctx e)) := by
        rw [hre]
        show (e1 :: e2 :: _).map hdaEntry = _
        rw [List.map_cons, List.map_cons, hde1, hde2]
        rfl
      rw [hz, hpb]
      exact c2_core_front ctx (e2 :: phaseB (l.filter (fun e => !isBanker ctx e)))
        e1 e2 o1 o2 t2 he1 he2 hch hct hhx hx2 h12 hnh (List.mem_cons_self _ _)
  · have hta' : pyIn t2 ctx.away = false := by simpa using hta
    have hb2' : isBanker ctx e2 = false := by rw [hb2]; exact hta'
    have hmem2nb : e2 ∈ l.filter (fun e => !isBanker ctx e) :=
      List.mem_filter.mpr ⟨hmem2l, by rw [hb2']; rfl⟩
    have hbank : l.filter (fun e => isBanker ctx e) = [e1] := by
      rcases hl with hl | hl
      · rw [hfb, hl, List.filter_cons, if_pos hb1, List.filter_cons,
          if_neg (show ¬ isBanker ctx e2 = true by rw [hb2']; simp)]
        rfl
      · rw [hfb, hl, List.filter_cons,
          if_neg (show ¬ isBanker ctx e2 = true by rw [hb2']; simp),
          List.filter_cons, if_pos hb1]
        rfl
    have hre : reorder ctx l = e1 :: l.filter (fun e => !isBanker ctx e) := by
      rw [reorder_eq, hbank]
      rfl
    have hpb : phaseB (reorder ctx l)
        = e1 :: phaseB (l.filter (fun e => !isBanker ctx e)) := by
      rw [hre]
      show (e1 :: _).map hdaEntry = _
      rw [List.map_cons, hde1]
      rfl
    have hmem2pb : e2 ∈ phaseB (l.filter (fun e => !isBanker ctx e)) := by
      unfold phaseB
      exact List.mem_map.mpr ⟨e2, hmem2nb, hde2⟩
    rw [hz, hpb]
    exact c2_core_front ctx (phaseB (l.filter (fun e => !isBanker ctx e)))
      e1 e2 o1 o2 t2 he1 he2 hch hct hhx hx2 h12 hnh hmem2pb

/-- Claim C2, counterexample to the claim as frozen: home `"Chelsea"`, away
    `"Arsenal"`, two team-qualified entries whose tokens both exactly equal
    the home name.  Each entry's token exactly equals the home name, yet the
    other entry resolves to home as well — the output labels are `"1/No"`
    and `"1/Yes"` and no output label contains `"2"` at all. -/
theorem claimC2_counterexample :
    tok (chars "Chelsea | Yes") = chars "Chelsea"
    ∧ tok (chars "Chelsea | No") = chars "Chelsea"
    ∧ (standardiseList ⟨chars "Chelsea", chars "Arsenal", chars "CHE", chars "ARS"⟩
        [⟨chars "Chelsea | Yes", chars "1.9", none⟩,
          ⟨chars "Chelsea | No", chars "2.1", none⟩]).map OddsEntry.label
      = [chars "1/No", chars "1/Yes"]
    ∧ (∀ e ∈ standardiseList ⟨chars "Chelsea", chars "Arsenal", chars "CHE", chars "ARS"⟩
        [⟨chars "Chelsea | Yes", chars "1.9", none⟩,
          ⟨chars "Chelsea | No", chars "2.1", none⟩],
        pyIn (chars "2") e.label = false) := by
  refine ⟨by decide, by decide, by decide, by decide⟩

/-- Claim C2, witness for the amended theorem: home `"Chelsea"`, away
    `"Arsenal"`, entries `"Chelsea | Yes"` and `"Burnley | No"`; the second
    entry is resolved to away, appearing in the output with label
    `"2/No"`. -/
theorem claimC2_witness :
    ∃ e ∈ standardiseList ⟨chars "Chelsea", chars "Arsenal", chars "CHE", chars "ARS"⟩
        [⟨chars "Chelsea | Yes", chars "1.9", none⟩,
          ⟨chars "Burnley | No", chars "2.1", none⟩],
      e.value = chars "2.1" ∧ e.total = (none : Option (List Char))
      ∧ e.label = normLbl (pyReplace (chars "Burnley") (chars "2") (chars "Burnley | No"))
      ∧ e.label = '2' :: '/' :: normLbl (pyReplace (chars "Burnley") (chars "2") (chars "No")) :=
  claimC2_amended ⟨chars "Chelsea", chars "Arsenal", chars "CHE", chars "ARS"⟩
    [⟨chars "Chelsea | Yes", chars "1.9", none⟩, ⟨chars "Burnley | No", chars "2.1", none⟩]
    ⟨chars "Chelsea | Yes", chars "1.9", none⟩ ⟨chars "Burnley | No", chars "2.1", none⟩
    (chars "Yes") (chars "No") (chars "Burnley")
    (Or.inl (by decide)) (by decide) (by decide) (by decide) (by decide) (by decide)
    (by decide) (by decide) (by decide) (by decide) (by decide) (by decide)
